import Mathlib

/-!
Verification development for a virtual-filesystem shell emulator.

The program under study maintains an in-memory tree of `VirtualFile` nodes
built from archive records, plus a session cursor (`cwd`), and implements
the commands `ls`, `cd`, `chmod`, `rm`, `find` over it.

Modelling conventions:
* A Python `VirtualFile` object becomes a node of the rose tree
  `VirtualFile` below; the insertion-ordered `children` dict becomes an
  association list.
* Python object identity is modelled by the node's path from the root
  (the list of child keys followed); the tree built by the program is a
  strict ownership tree, so identity and path coincide as long as the
  node is still attached to the root.  The session cursor is therefore
  stored as a path.  All command models are faithful on states whose
  cursor is attached, which every command except `rm` preserves.
* Strings are manipulated through explicit `List Char` functions that
  mirror the Python `str.strip`, `str.split`, `os.path.basename` and
  `os.path.join` semantics used by the source, so that they can be
  reasoned about by list induction.
* Machine integers are modelled as `Nat`; the source only masks with
  0o777 and compares bits, so no overflow discipline is needed.
* Printing becomes an output list of lines returned next to the state.
-/

/-- One node of the virtual filesystem: `VirtualFile(name, is_dir, permissions)`
with an insertion-ordered `children` mapping. -/
inductive VirtualFile : Type where
  | mk (name : String) (is_dir : Bool) (permissions : Nat)
       (children : List (String × VirtualFile)) : VirtualFile

def VirtualFile.name : VirtualFile → String
  | .mk n _ _ _ => n

def VirtualFile.is_dir : VirtualFile → Bool
  | .mk _ d _ _ => d

def VirtualFile.permissions : VirtualFile → Nat
  | .mk _ _ p _ => p

def VirtualFile.children : VirtualFile → List (String × VirtualFile)
  | .mk _ _ _ c => c

/-- Dictionary lookup `children[name]` / `name in children` (keys are unique
in a Python dict; on association lists the first binding wins). -/
def lookupChild : List (String × VirtualFile) → String → Option VirtualFile
  | [], _ => none
  | (n, c) :: rest, key => if n = key then some c else lookupChild rest key

/-- `has_permission(file_obj, permission_type)`: a pure bit test on the
node's `permissions` field. -/
def hasPermission (fileObj : VirtualFile) (permissionType : Char) : Bool :=
  let mode := fileObj.permissions
  if permissionType = 'r' then decide (mode &&& 0o400 ≠ 0)
  else if permissionType = 'w' then decide (mode &&& 0o200 ≠ 0)
  else if permissionType = 'x' then decide (mode &&& 0o100 ≠ 0)
  else false

/-- `s.strip(sep)` for a single-character separator: drop `sep` from both ends. -/
def stripChar (sep : Char) (s : String) : String :=
  String.mk (((s.data.dropWhile (· = sep)).reverse.dropWhile (· = sep)).reverse)

/-- `str.split(sep)` for a single-character separator, on `List Char`.
Always returns a nonempty list; the empty string yields `[[]]`,
matching Python. -/
def splitChars (sep : Char) : List Char → List (List Char)
  | [] => [[]]
  | c :: rest =>
    match splitChars sep rest with
    | [] => [[]]
    | seg :: segs => if c = sep then [] :: seg :: segs else (c :: seg) :: segs

/-- `file_info.filename.strip(slash).split(slash)` as used by `load_zip`
and `_navigate_path`. -/
def splitParts (s : String) : List String :=
  (splitChars '/' (stripChar '/' s).data).map String.mk

/-- `os.path.basename(p)` on POSIX: everything after the last slash. -/
def basename (p : String) : String :=
  ((splitChars '/' p.data).getLastD []).asString

/-- `s.startswith(c)` for a one-character needle. -/
def strStartsWith (s : String) (c : Char) : Bool :=
  match s.data with
  | [] => false
  | c0 :: _ => c0 = c

/-- `s.endswith(c)` for a one-character needle. -/
def strEndsWith (s : String) (c : Char) : Bool :=
  match s.data.getLast? with
  | none => false
  | some c0 => c0 = c

/-- `os.path.join(a, b)` on POSIX, two arguments. -/
def pathJoin (a b : String) : String :=
  if strStartsWith b '/' then b
  else if a = "" ∨ strEndsWith a '/' then a ++ b
  else a ++ "/" ++ b

/-- The single-quote character (ASCII 39), used in the source's error
messages around user-supplied path arguments. -/
def squote : String := String.mk [Char.ofNat 39]

/-- Wrap a string in single quotes, as the source's f-strings do. -/
def quo (s : String) : String := squote ++ s ++ squote

/-- Follow a path of child keys down from a node.  This captures "the node
at path `p`": Python object identity is modelled by this path. -/
def getNode : VirtualFile → List String → Option VirtualFile
  | v, [] => some v
  | v, s :: rest =>
    match lookupChild v.children s with
    | some c => getNode c rest
    | none => none

mutual
/-- `_find_parent(current, target)`: depth-first search for the node whose
children contain `target`.  `cur` is the path of `current` from the root;
`target` is the path of the searched node (its identity).  Returns the
parent's path.  Mirrors the source: for each child, first test identity,
then recurse into the child only when it is a directory. -/
def findParentFrom (current : VirtualFile) (cur target : List String) :
    Option (List String) :=
  match current with
  | .mk _ _ _ cs => findParentChildren cs cur target

def findParentChildren (cs : List (String × VirtualFile))
    (cur target : List String) : Option (List String) :=
  match cs with
  | [] => none
  | (n, child) :: rest =>
    if cur ++ [n] = target then some cur
    else
      match
        (if child.is_dir then findParentFrom child (cur ++ [n]) target
         else none) with
      | some p => some p
      | none => findParentChildren rest cur target
end

/-- The `for part in parts` loop of `_navigate_path`, tracking the current
node by its path.  An empty or `.` segment is skipped; `..` moves to the
`_find_parent` result, falling back to the root; any other segment must be
a child of the current node or the whole resolution fails. -/
def navParts (root : VirtualFile) : List String → List String →
    Option (List String)
  | cur, [] => some cur
  | cur, part :: rest =>
    if part = "" ∨ part = "." then navParts root cur rest
    else if part = ".." then
      match findParentFrom root [] cur with
      | some p => navParts root p rest
      | none => navParts root [] rest
    else
      match getNode root cur with
      | some node =>
        match lookupChild node.children part with
        | some _ => navParts root (cur ++ [part]) rest
        | none => none
      | none => none

/-- `_navigate_path(path, parent)`: split the argument, pick the start node
(root for absolute paths, else the session cursor), optionally drop the
last segment (`parent=True`), then walk the segments. -/
def navigatePath (root : VirtualFile) (cwd : List String) (path : String)
    (parent : Bool) : Option (List String) :=
  let parts := splitParts path
  let start := if strStartsWith path '/' then ([] : List String) else cwd
  let parts2 := if parent then parts.dropLast else parts
  navParts root start parts2

/-- Resolution returning both the path and the node at it.  On any state
whose cursor is attached this is exactly `_navigate_path` (which returns
the node object). -/
def navigateNode (root : VirtualFile) (cwd : List String) (path : String)
    (parent : Bool) : Option (List String × VirtualFile) :=
  (navigatePath root cwd path parent).bind fun p =>
    (getNode root p).map fun v => (p, v)

/-- Replace a node's `permissions` wholesale (`target.permissions = mode`). -/
def setPerms (mode : Nat) : VirtualFile → VirtualFile
  | .mk n d _ cs => .mk n d mode cs

/-- `del children[key]`: remove the (unique in a dict, first here) binding. -/
def removeChild : List (String × VirtualFile) → String →
    List (String × VirtualFile)
  | [], _ => []
  | (n, c) :: rest, key =>
    if n = key then rest else (n, c) :: removeChild rest key

/-- Apply `f` to the value bound to `key` (first binding), keeping order. -/
def mapChildAt : List (String × VirtualFile) → String →
    (VirtualFile → VirtualFile) → List (String × VirtualFile)
  | [], _, _ => []
  | (n, c) :: rest, key, f =>
    if n = key then (n, f c) :: rest else (n, c) :: mapChildAt rest key f

/-- In-place mutation of the node at path `p` (Python mutates the object;
here the spine above it is rebuilt). -/
def updateAt : VirtualFile → List String → (VirtualFile → VirtualFile) →
    VirtualFile
  | v, [], f => f v
  | .mk n d pm cs, s :: rest, f =>
    .mk n d pm (mapChildAt cs s (fun c => updateAt c rest f))

/-- Delete the binding `key` from a node's children
(`del target_parent.children[target_name]`). -/
def removeChildFile (key : String) : VirtualFile → VirtualFile
  | .mk n d pm cs => .mk n d pm (removeChild cs key)

/-- One archive record as the tree build consumes it: the stored filename,
the result of `file_info.is_dir()`, and the raw 32-bit external-attribute
field (called `external_attr` in the source). -/
structure ZipInfo where
  filename : String
  isDirFlag : Bool
  ext_attr : Nat
  deriving DecidableEq

/-- The permission computation of `_add_file`: mode bits live in the upper
16 bits of `external_attr`, masked to 0o777; a zero result falls back to
the fixed default 0o755. -/
def effPerms (info : ZipInfo) : Nat :=
  let permissions := (info.ext_attr >>> 16) &&& 0o777
  if permissions = 0 then 0o755 else permissions

/-- `_add_file(current_dir, path_parts, file_info)`: walk the segments,
creating any segment that is missing with the record's flag and effective
permissions (note: the source applies the record's `is_dir`/mode to every
missing segment, intermediate or final), and recursing into the (existing
or just-created) child. -/
def addFile : VirtualFile → List String → ZipInfo → VirtualFile
  | v, [], _ => v
  | .mk n d pm cs, name :: rest, info =>
    match lookupChild cs name with
    | some _ => .mk n d pm (mapChildAt cs name (fun c => addFile c rest info))
    | none =>
      let newChild := VirtualFile.mk name info.isDirFlag (effPerms info) []
      .mk n d pm
        (mapChildAt (cs ++ [(name, newChild)]) name
          (fun c => addFile c rest info))

/-- The root created by `VirtualFileSystem.__init__`:
`VirtualFile(slash, is_dir=True)` with the default mode. -/
def rootInit : VirtualFile := .mk "/" true 0o755 []

/-- `load_zip`: fold the archive records, in order, into the tree. -/
def loadZip (infos : List ZipInfo) : VirtualFile :=
  infos.foldl (fun root info => addFile root (splitParts info.filename) info)
    rootInit

/-- The filesystem plus the session cursor (`self.root`, `self.cwd`).
The cursor is the path of the current node. -/
structure FSState where
  root : VirtualFile
  cwd : List String

/-- The state right after `VirtualFileSystem(zip_path)`: tree built from
the records, cursor at the root. -/
def initState (infos : List ZipInfo) : FSState :=
  FSState.mk (loadZip infos) []

def lsAccessMsg (a : String) : String :=
  "ls: cannot access " ++ quo a ++ ": No such file or directory"

def lsDeniedMsg (n : String) : String :=
  "ls: cannot open directory " ++ quo n ++ ": Permission denied"

def cdNoSuchMsg (a : String) : String :=
  "cd: no such file or directory: " ++ a

def cdDeniedMsg (a : String) : String :=
  "cd: permission denied: " ++ a

def chmodInvalidMsg (a : String) : String :=
  "chmod: invalid mode: " ++ quo a

def chmodDeniedMsg (a : String) : String :=
  "chmod: cannot change permissions of " ++ quo a ++ ": Permission denied"

def chmodNoSuchMsg (a : String) : String :=
  "chmod: cannot access " ++ quo a ++ ": No such file or directory"

def rmDeniedMsg (a : String) : String :=
  "rm: cannot remove " ++ quo a ++ ": Permission denied"

def rmNoSuchMsg (a : String) : String :=
  "rm: cannot remove " ++ quo a ++ ": No such file or directory"

def findDeniedMsg (p : String) : String :=
  "find: cannot access " ++ quo p ++ ": Permission denied"

/-- `_get_target_dir(args)`: the current node when no argument is given,
otherwise the resolved argument provided it is a directory; a failed
resolution or a non-directory prints the ls "No such file" diagnostic. -/
def getTargetDir (st : FSState) (args : List String) :
    Option (List String × VirtualFile) × List String :=
  match args with
  | [] => ((getNode st.root st.cwd).map (fun v => (st.cwd, v)), [])
  | a :: _ =>
    match navigateNode st.root st.cwd a false with
    | some (p, v) =>
      if v.is_dir then (some (p, v), []) else (none, [lsAccessMsg a])
    | none => (none, [lsAccessMsg a])

/-- `ls`: list the target directory's children names (the `name` field,
in insertion order), gated on the target's read bit. -/
def ls (st : FSState) (args : List String) : FSState × List String :=
  match getTargetDir st args with
  | (some (_, v), out) =>
    (st, out ++
      (if hasPermission v 'r' then v.children.map (fun pr => pr.2.name)
       else [lsDeniedMsg v.name]))
  | (none, out) => (st, out)

/-- `cd`: no argument resets the cursor to the root; otherwise the argument
must resolve to a directory with the execute bit, which becomes the cursor. -/
def cd (st : FSState) (args : List String) : FSState × List String :=
  match args with
  | [] => (FSState.mk st.root [], [])
  | a :: _ =>
    match navigateNode st.root st.cwd a false with
    | some (p, v) =>
      if v.is_dir then
        if hasPermission v 'x' then (FSState.mk st.root p, [])
        else (st, [cdDeniedMsg a])
      else (st, [cdNoSuchMsg a])
    | none => (st, [cdNoSuchMsg a])

/-- `int(s, 8)` restricted to plain unsigned octal numerals, the only
shapes the specified behaviour depends on. -/
def parseOctal (s : String) : Option Nat :=
  if s.data ≠ [] ∧ s.data.all (fun c => '0' ≤ c ∧ c ≤ '7') then
    some (s.data.foldl (fun acc c => acc * 8 + (c.toNat - 48)) 0)
  else none

/-- The body of `chmod` after mode parsing: resolve the path; changing the
target requires the write bit on the target node itself. -/
def chmodWith (st : FSState) (mode : Nat) (arg : String) :
    FSState × List String :=
  match navigateNode st.root st.cwd arg false with
  | some (p, v) =>
    if hasPermission v 'w' then
      (FSState.mk (updateAt st.root p (setPerms mode)) st.cwd, [])
    else (st, [chmodDeniedMsg arg])
  | none => (st, [chmodNoSuchMsg arg])

/-- `chmod`: exactly two arguments, the first a base-8 mode. -/
def chmod (st : FSState) (args : List String) : FSState × List String :=
  match args with
  | [m, a] =>
    match parseOctal m with
    | some mode => chmodWith st mode a
    | none => (st, [chmodInvalidMsg m])
  | _ => (st, ["chmod: missing operand"])

/-- `rm`: the target name is the basename of the raw argument; the parent
directory is resolved with `parent=True`; removal requires the write bit on
that parent. -/
def rm (st : FSState) (args : List String) : FSState × List String :=
  match args with
  | [] => (st, ["rm: missing operand"])
  | targetPath :: _ =>
    let targetName := basename targetPath
    match navigateNode st.root st.cwd targetPath true with
    | none => (st, [rmNoSuchMsg targetPath])
    | some (pp, pnode) =>
      if (lookupChild pnode.children targetName).isSome then
        if hasPermission pnode 'w' then
          (FSState.mk (updateAt st.root pp (removeChildFile targetName))
            st.cwd, [])
        else (st, [rmDeniedMsg targetPath])
      else (st, [rmNoSuchMsg targetPath])

mutual
/-- `_find_recursive`: refuse (one line) directories without the execute
bit; otherwise scan the children: a name match is printed when readable
(and, for directories, fully listed), or reported denied; non-matching
directory children are searched recursively. -/
def findRecursive (currentDir : VirtualFile) (searchTerm currentPath : String) :
    List String :=
  if hasPermission currentDir 'x' = false then [findDeniedMsg currentPath]
  else
    match currentDir with
    | .mk _ _ _ cs => findRecChildren cs searchTerm currentPath

def findRecChildren (cs : List (String × VirtualFile))
    (searchTerm currentPath : String) : List String :=
  match cs with
  | [] => []
  | (name, item) :: rest =>
    let itemPath := pathJoin currentPath name
    (if searchTerm = name then
       if hasPermission item 'r' then
         itemPath :: (if item.is_dir then listRecursive item itemPath else [])
       else [findDeniedMsg itemPath]
     else if item.is_dir then findRecursive item searchTerm itemPath
     else []) ++ findRecChildren rest searchTerm currentPath

/-- `_list_recursive`: refuse (one line) directories without the execute
bit; otherwise print every child (path when readable, denied line when
not) and descend into directory children. -/
def listRecursive (currentDir : VirtualFile) (currentPath : String) :
    List String :=
  if hasPermission currentDir 'x' = false then [findDeniedMsg currentPath]
  else
    match currentDir with
    | .mk _ _ _ cs => listRecChildren cs currentPath

def listRecChildren (cs : List (String × VirtualFile)) (currentPath : String) :
    List String :=
  match cs with
  | [] => []
  | (name, item) :: rest =>
    let itemPath := pathJoin currentPath name
    ((if hasPermission item 'r' then [itemPath] else [findDeniedMsg itemPath])
      ++ (if item.is_dir then listRecursive item itemPath else []))
      ++ listRecChildren rest currentPath
end

/-- `find`: search term is the first argument (default the empty string),
starting at the session cursor with display path `.`. -/
def find (st : FSState) (args : List String) : FSState × List String :=
  let searchTerm := args.headD ""
  match getNode st.root st.cwd with
  | some v => (st, findRecursive v searchTerm ".")
  | none => (st, [])

/-- One dispatched command with its argument vector. -/
inductive Cmd : Type where
  | ls (args : List String)
  | cd (args : List String)
  | chmod (args : List String)
  | rm (args : List String)
  | find (args : List String)

/-- Execute one command against the session state. -/
def step (st : FSState) : Cmd → FSState × List String
  | .ls args => ls st args
  | .cd args => cd st args
  | .chmod args => chmod st args
  | .rm args => rm st args
  | .find args => find st args

/-- Run a command list, discarding output. -/
def runCmds (st : FSState) : List Cmd → FSState
  | [] => st
  | c :: rest => runCmds (step st c).1 rest

/-- Commands that are not `cd`. -/
def Cmd.notCd : Cmd → Bool
  | .cd _ => false
  | _ => true

/-- Command lists that never invoke `rm`. -/
def Cmd.noRm : List Cmd → Bool
  | [] => true
  | .rm _ :: _ => false
  | _ :: rest => noRm rest

def c1State : FSState :=
  FSState.mk (VirtualFile.mk "/" true 0o755
    [("f", VirtualFile.mk "f" false 0o644 [])]) []

def c6State : FSState :=
  FSState.mk (VirtualFile.mk "/" true 0o755
    [("d", VirtualFile.mk "d" true 0o755 []),
     ("e", VirtualFile.mk "e" true 0o666 [])]) []

def c5Root : VirtualFile :=
  .mk "/" true 0o755
    [("m", .mk "m" true 0o755 [("d", .mk "d" true 0 [])])]

/-- Every node on the given path (each nonempty prefix) is a directory.
This is what `_find_parent`'s depth-first search needs in order to descend
to a node: it only recurses into directory children. -/
def allDirsAlong : VirtualFile → List String → Bool
  | _, [] => true
  | v, s :: rest =>
    match lookupChild v.children s with
    | some c => c.is_dir && allDirsAlong c rest
    | none => false

def c7Wit : FSState :=
  FSState.mk (VirtualFile.mk "/" true 0o755
    [("a", VirtualFile.mk "a" true 0o755 [])]) ["a"]

def c7Root : VirtualFile :=
  .mk "/" true 0o600 [("a", .mk "a" true 0o755 [])]

def c10Wit : FSState :=
  FSState.mk (VirtualFile.mk "/" true 0o755
    [("dir1", VirtualFile.mk "dir1" true 0o755 [])]) []

def c10Root : VirtualFile :=
  .mk "/" true 0o755
    [("", .mk "" false 0o644 []), ("dir1", .mk "dir1" true 0o755 [])]

/-- The cursor invariant: the cursor path resolves to a directory node,
and the root node is a directory. -/
def CursorOk (st : FSState) : Prop :=
  (∃ v, getNode st.root st.cwd = some v ∧ v.is_dir = true)
  ∧ st.root.is_dir = true

def c4Infos : List ZipInfo := [ZipInfo.mk "dir1/" true 0]

/-- `_get_path(dir_obj)`: climb to the root through `_find_parent`,
prepending a slash and the node's `name` at each step.  A failing parent
search is the loop crashing in the source (`None` has no `name`), modelled
as `none`.  The fuel argument is only a structural-recursion bound: every
successful `_find_parent` answer is one segment shorter than its input
(`findParentFrom_shape`), so fuel `p.length` always suffices and the
fuel-exhaustion branch is unreachable. -/
def getPathLoop (root : VirtualFile) : Nat → List String → String →
    Option String
  | _, [], acc => some acc
  | 0, _ :: _, _ => none
  | fuel + 1, p0 :: pr, acc =>
    match getNode root (p0 :: pr) with
    | none => none
    | some v =>
      match findParentFrom root [] (p0 :: pr) with
      | none => none
      | some q => getPathLoop root fuel q ("/" ++ v.name ++ acc)

/-- `_get_path` proper: run the climb from the node's path with the empty
accumulator; an empty result (the root itself) becomes the separator. -/
def getPath (root : VirtualFile) (p : List String) : Option String :=
  (getPathLoop root p.length p "").map (fun s => if s = "" then "/" else s)

/-- `/`-prefixed concatenation of path segments: the string `_get_path`
builds for an attached node whose names agree with its keys. -/
def pathString (p : List String) : String :=
  p.foldr (fun s acc => "/" ++ s ++ acc) ""

def c9Wit : VirtualFile :=
  .mk "/" true 0o755
    [("a", .mk "a" true 0o755 [("b", .mk "b" false 0o644 [])])]

def c9Root : VirtualFile := loadZip [ZipInfo.mk "f/g" false 0]

/-- The segment list a record contributes (`filename.strip('/').split('/')`). -/
def partsOf (info : ZipInfo) : List String := splitParts info.filename

mutual
/-- Recursively enumerate every directory: each child is reported with its
path and directory flag, and directory children are descended into.  This
is the spec's round-trip listing (the permission-free core of
`_list_recursive`). -/
def enumNodes (v : VirtualFile) (cur : List String) :
    List (List String × Bool) :=
  match v with
  | .mk _ _ _ cs => enumChildren cs cur

def enumChildren (cs : List (String × VirtualFile)) (cur : List String) :
    List (List String × Bool) :=
  match cs with
  | [] => []
  | (n, c) :: rest =>
    (cur ++ [n], c.is_dir)
      :: ((if c.is_dir then enumNodes c (cur ++ [n]) else [])
          ++ enumChildren rest cur)
end

/-- Well-formed children mappings: the keys at every node are pairwise
distinct (true of every Python dict). -/
inductive WFKeys : VirtualFile → Prop where
  | mk : ∀ n d pm cs, (cs.map Prod.fst).Nodup →
      (∀ s c, (s, c) ∈ cs → WFKeys c) → WFKeys (VirtualFile.mk n d pm cs)

/-- Every node that owns a child is a directory. -/
def ChildrenDirs (t : VirtualFile) : Prop :=
  ∀ (p : List String) (s : String),
    (getNode t (p ++ [s])).isSome = true →
    ∃ w, getNode t p = some w ∧ w.is_dir = true

/-- Every nonempty proper prefix of a record's path occurs as the path of
an earlier record. -/
def PrefixClosed (records : List ZipInfo) : Prop :=
  ∀ i, (hi : i < records.length) →
    ∀ q ∈ (partsOf (records.get ⟨i, hi⟩)).inits,
      q ≠ [] → q ≠ partsOf (records.get ⟨i, hi⟩) →
      q ∈ (records.take i).map partsOf

/-- A record whose path is a proper prefix of another record's path is
flagged as a directory. -/
def PrefixRecordsDirs (records : List ZipInfo) : Prop :=
  ∀ i, (hi : i < records.length) → ∀ j, (hj : j < records.length) →
    partsOf (records.get ⟨i, hi⟩) ≠ partsOf (records.get ⟨j, hj⟩) →
    partsOf (records.get ⟨i, hi⟩) <+: partsOf (records.get ⟨j, hj⟩) →
    (records.get ⟨i, hi⟩).isDirFlag = true

/-- The Tree-Store invariant maintained while folding records into the
tree: the nonempty paths present are exactly the processed records' paths,
each node carries its record's flag, keys are distinct and only
directories own children. -/
def BuildInv (rs : List ZipInfo) (t : VirtualFile) : Prop :=
  (∀ p, p ≠ [] → ((getNode t p).isSome = true ↔ ∃ r ∈ rs, partsOf r = p))
  ∧ (∀ p v, p ≠ [] → getNode t p = some v →
      ∃ r ∈ rs, partsOf r = p ∧ v.is_dir = r.isDirFlag)
  ∧ WFKeys t ∧ ChildrenDirs t ∧ t.is_dir = true

def c2WitRecords : List ZipInfo :=
  [ZipInfo.mk "docs/" true 0, ZipInfo.mk "docs/readme.txt" false 0]

def c2CexRecords : List ZipInfo := [ZipInfo.mk "a/b" true 0]

/-! ### String helpers (Python `str` and `os.path` operations) -/

/-! ### Tree primitives -/

/-! ### Mutation primitives -/

/-! ### The archive build (`load_zip` / `_add_file`) -/

/-! ### Session state and commands -/

/-! ### The command step relation (for the cursor state machine) -/

/-! ### C1: the chmod/rm permission gates -/

/-- C1: for every state and resolvable path argument, `chmod` mutates the
resolved target's permissions exactly when the write bit is set on the
target node itself (otherwise it reports permission denied and changes
nothing), while `rm` removes the entry from the resolved parent's children
exactly when the write bit is set on that parent (otherwise it reports
permission denied and changes nothing); the chmod gate reads only the
target node and the rm gate only the parent node, so the two gates are
not swapped. -/
theorem chmod_rm_write_gates :
    (∀ (st : FSState) (mode : Nat) (arg : String) (p : List String)
       (v : VirtualFile),
       navigateNode st.root st.cwd arg false = some (p, v) →
       (hasPermission v 'w' = true →
          chmodWith st mode arg
            = (FSState.mk (updateAt st.root p (setPerms mode)) st.cwd, []))
       ∧ (hasPermission v 'w' = false →
          chmodWith st mode arg = (st, [chmodDeniedMsg arg])))
    ∧ (∀ (st : FSState) (arg : String) (pp : List String) (pn : VirtualFile),
       navigateNode st.root st.cwd arg true = some (pp, pn) →
       (lookupChild pn.children (basename arg)).isSome = true →
       (hasPermission pn 'w' = true →
          rm st [arg]
            = (FSState.mk
                (updateAt st.root pp (removeChildFile (basename arg)))
                st.cwd, []))
       ∧ (hasPermission pn 'w' = false →
          rm st [arg] = (st, [rmDeniedMsg arg]))) := by
  constructor
  · intro st mode arg p v hnav
    constructor <;> intro hw <;> simp [chmodWith, hnav, hw]
  · intro st arg pp pn hnav hmem
    constructor <;> intro hw <;> simp [rm, hnav, hmem, hw]

/-- Witness for C1 at a one-file tree: both gates pass. -/
theorem chmod_rm_write_gates_witness :
    chmodWith c1State 0o600 "f"
      = (FSState.mk (updateAt c1State.root ["f"] (setPerms 0o600)) [], [])
    ∧ rm c1State ["f"]
      = (FSState.mk (updateAt c1State.root [] (removeChildFile "f")) [], []) := by
  constructor
  · exact (chmod_rm_write_gates.1 c1State 0o600 "f" ["f"]
      (VirtualFile.mk "f" false 0o644 []) rfl).1 (by decide)
  · exact (chmod_rm_write_gates.2 c1State "f" [] c1State.root rfl
      (by decide)).1 (by decide)

/-! ### C6: the cd cases -/

/-- C6: with an argument, `cd` reports "no such file or directory" (naming
the raw argument) and leaves the cursor unchanged when resolution fails or
resolves to a non-directory; reports "permission denied" (naming the raw
argument) and leaves the cursor unchanged when the directory lacks the
execute bit; and otherwise moves the cursor to the resolved node. -/
theorem cd_argument_cases :
    ∀ (st : FSState) (arg : String),
      (navigateNode st.root st.cwd arg false = none →
        cd st [arg] = (st, [cdNoSuchMsg arg]))
      ∧ (∀ p v, navigateNode st.root st.cwd arg false = some (p, v) →
          v.is_dir = false → cd st [arg] = (st, [cdNoSuchMsg arg]))
      ∧ (∀ p v, navigateNode st.root st.cwd arg false = some (p, v) →
          v.is_dir = true → hasPermission v 'x' = false →
          cd st [arg] = (st, [cdDeniedMsg arg]))
      ∧ (∀ p v, navigateNode st.root st.cwd arg false = some (p, v) →
          v.is_dir = true → hasPermission v 'x' = true →
          cd st [arg] = (FSState.mk st.root p, [])) := by
  intro st arg
  refine ⟨fun h => by simp [cd, h], fun p v h hd => by simp [cd, h, hd],
    fun p v h hd hx => by simp [cd, h, hd, hx],
    fun p v h hd hx => by simp [cd, h, hd, hx]⟩

/-- Witness for C6: a successful `cd` and a permission-denied `cd`. -/
theorem cd_argument_cases_witness :
    cd c6State ["d"] = (FSState.mk c6State.root ["d"], [])
    ∧ cd c6State ["e"] = (c6State, [cdDeniedMsg "e"]) := by
  constructor
  · exact (cd_argument_cases c6State "d").2.2.2 ["d"]
      (VirtualFile.mk "d" true 0o755 []) rfl (by decide) (by decide)
  · exact (cd_argument_cases c6State "e").2.2.1 ["e"]
      (VirtualFile.mk "e" true 0o666 []) rfl (by decide) (by decide)

/-! ### C5: find on execute-less directories -/

/-- C5 (amended): whenever the `find` traversal enters a directory lacking
the execute bit — be it through the search recursion or through the
listing of a matched directory — that call emits exactly one
permission-denied line naming the directory's display path and produces no
output for anything beneath it.  (The original claim's "exactly one line
naming that path in the whole output" fails: an unreadable execute-less
directory listed inside a matched directory also receives the read-check
denied line with the same path, see the counterexample.) -/
theorem find_noexec_single_line :
    ∀ (v : VirtualFile) (term p : String), hasPermission v 'x' = false →
      findRecursive v term p = [findDeniedMsg p]
      ∧ listRecursive v p = [findDeniedMsg p] := by
  intro v term p hx
  constructor
  · rw [findRecursive.eq_def]; simp [hx]
  · rw [listRecursive.eq_def]; simp [hx]

/-- Witness for C5: a mode-0 directory node. -/
theorem find_noexec_single_line_witness :
    findRecursive (VirtualFile.mk "d" true 0 []) "t" "./d"
      = [findDeniedMsg "./d"] := by
  exact (find_noexec_single_line (VirtualFile.mk "d" true 0 []) "t" "./d"
    (by decide)).1

/-- C5 counterexample: in this tree, `find m` emits *two* permission-denied
lines naming the execute-less directory `./m/d` (one from the read check in
the listing of the matched directory `m`, one from the execute check on
entering `d`), refuting "exactly one permission-denied line". -/
theorem find_noexec_cex :
    (find (FSState.mk c5Root []) ["m"]).2
      = ["./m", findDeniedMsg "./m/d", findDeniedMsg "./m/d"]
    ∧ (getNode c5Root ["m", "d"]).map (fun v => hasPermission v 'x')
      = some false := by
  constructor <;> rfl

/-! ### Correctness of the parent search -/

/-- Custom induction principle for the nested inductive `VirtualFile`. -/
theorem VirtualFile.inductionOn (v : VirtualFile) (P : VirtualFile → Prop)
    (stp : ∀ n d p cs, (∀ q c, (q, c) ∈ cs → P c) → P (VirtualFile.mk n d p cs)) :
    P v := by
  have key : ∀ k (v : VirtualFile), sizeOf v ≤ k → P v := by
    intro k
    induction k with
    | zero =>
      intro v h
      cases v with
      | mk n d p cs => simp at h
    | succ k ih =>
      intro v h
      cases v with
      | mk n d p cs =>
        apply stp
        intro q c hc
        apply ih
        have h1 : sizeOf (q, c) < sizeOf cs := List.sizeOf_lt_of_mem hc
        have h2 : sizeOf c < sizeOf (q, c) := by simp
        have h3 : sizeOf cs < sizeOf (VirtualFile.mk n d p cs) := by simp
        omega
  exact key (sizeOf v) v (le_refl _)

theorem findParentChildren_shape_aux :
    ∀ (k : Nat) (cs : List (String × VirtualFile)), sizeOf cs ≤ k →
      ∀ (cur target r : List String),
        findParentChildren cs cur target = some r → ∃ n, target = r ++ [n] := by
  intro k
  induction k using Nat.strong_induction_on with
  | _ k ih =>
    intro cs hsz cur target r hr
    cases cs with
    | nil => simp [findParentChildren] at hr
    | cons hd rest =>
      obtain ⟨n, child⟩ := hd
      simp only [findParentChildren] at hr
      split at hr
      · next hfire =>
        obtain rfl : cur = r := by injection hr
        exact ⟨n, hfire.symm⟩
      · next hfire =>
        split at hr
        · next p hinner =>
          obtain rfl : p = r := by injection hr
          cases hdir : child.is_dir with
          | false => rw [hdir] at hinner; simp at hinner
          | true =>
            rw [hdir] at hinner; simp at hinner
            cases child with
            | mk nm dd pm cc =>
              simp only [findParentFrom] at hinner
              have hlt : sizeOf cc < k := by
                have h1 : sizeOf ((n, VirtualFile.mk nm dd pm cc) :: rest)
                    = 1 + sizeOf (n, VirtualFile.mk nm dd pm cc) + sizeOf rest := by
                  simp
                have h2 : sizeOf (n, VirtualFile.mk nm dd pm cc)
                    = 1 + sizeOf n + (1 + sizeOf nm + 1 + pm + sizeOf cc) := by
                  simp
                omega
              exact ih (sizeOf cc) hlt cc (le_refl _) _ _ _ hinner
        · next hinner =>
          have hlt : sizeOf rest < k := by
            have h1 : sizeOf ((n, child) :: rest) = 1 + sizeOf (n, child) + sizeOf rest := by
              simp
            have h2 : 0 < sizeOf (n, child) := by
              cases child
              simp
            omega
          exact ih (sizeOf rest) hlt rest (le_refl _) _ _ _ hr

/-- Any successful `_find_parent` answer is the searched path with its last
segment removed: the search can only fire at the unique position whose path
extended by one child key equals the target. -/
theorem findParentFrom_shape (v : VirtualFile) (cur target r : List String)
    (h : findParentFrom v cur target = some r) : ∃ n, target = r ++ [n] := by
  cases v with
  | mk n d pm cs =>
    simp only [findParentFrom] at h
    exact findParentChildren_shape_aux (sizeOf cs) cs (le_refl _) cur target r h

/-- Searching for the root (empty path) always fails: the root is nobody's
child. -/
theorem findParentFrom_nil_target (v : VirtualFile) (cur : List String) :
    findParentFrom v cur [] = none := by
  cases h : findParentFrom v cur [] with
  | none => rfl
  | some r =>
    obtain ⟨n, hn⟩ := findParentFrom_shape v cur [] r h
    simp at hn

theorem findParentChildren_reach_aux :
    ∀ (cs : List (String × VirtualFile)) (cur : List String) (s : String)
      (rest : List String) (c : VirtualFile),
      lookupChild cs s = some c →
      (rest = [] ∨ (c.is_dir = true
        ∧ (findParentFrom c (cur ++ [s]) (cur ++ s :: rest)).isSome = true)) →
      (findParentChildren cs cur (cur ++ s :: rest)).isSome = true := by
  intro cs
  induction cs with
  | nil => intro cur s rest c hc; simp [lookupChild] at hc
  | cons hd tl ih =>
    intro cur s rest c hc hbr
    obtain ⟨n, ch⟩ := hd
    simp only [findParentChildren]
    split
    · simp
    · next hfire =>
      by_cases hn : n = s
      · subst hn
        have hch : ch = c := by
          simpa [lookupChild] using hc
        subst hch
        rcases hbr with hrest | ⟨hdir, hsome⟩
        · subst hrest
          exact absurd rfl hfire
        · cases hfp : findParentFrom ch (cur ++ [n]) (cur ++ n :: rest) with
          | none => rw [hfp] at hsome; simp at hsome
          | some p => simp [hdir, hfp]
      · have hc' : lookupChild tl s = some c := by
          simpa [lookupChild, hn] using hc
        cases hinner : (if ch.is_dir = true
            then findParentFrom ch (cur ++ [n]) (cur ++ s :: rest) else none) with
        | some p => simp [hinner]
        | none => simpa [hinner] using ih cur s rest c hc' hbr

/-- If the target lies along an all-directories path below the current
node, the depth-first search finds an answer. -/
theorem findParent_reach :
    ∀ (suffix : List String) (v : VirtualFile) (cur : List String),
      suffix ≠ [] →
      (getNode v suffix).isSome = true →
      allDirsAlong v suffix.dropLast = true →
      (findParentFrom v cur (cur ++ suffix)).isSome = true := by
  intro suffix
  induction suffix with
  | nil => intro v cur h; exact absurd rfl h
  | cons s rest ih =>
    intro v cur _ hval hdirs
    cases v with
    | mk nm d pm cs =>
      simp only [findParentFrom]
      simp only [getNode] at hval
      cases hc : lookupChild (VirtualFile.mk nm d pm cs).children s with
      | none => rw [hc] at hval; simp at hval
      | some c =>
        rw [hc] at hval
        simp only [VirtualFile.children] at hc
        cases rest with
        | nil => exact findParentChildren_reach_aux cs cur s [] c hc (Or.inl rfl)
        | cons r0 rr =>
          have hdrop : (s :: r0 :: rr).dropLast = s :: (r0 :: rr).dropLast := rfl
          rw [hdrop] at hdirs
          simp only [allDirsAlong, VirtualFile.children] at hdirs
          rw [hc] at hdirs
          simp only [Bool.and_eq_true] at hdirs
          refine findParentChildren_reach_aux cs cur s (r0 :: rr) c hc
            (Or.inr ⟨hdirs.1, ?_⟩)
          have := ih c (cur ++ [s]) (by simp) hval hdirs.2
          simpa [List.append_assoc] using this

/-- `_find_parent(root, target)` returns exactly the parent path (the
target with its last segment dropped) whenever the target is a nonempty
path present in the tree all of whose strict ancestors are directories. -/
theorem findParent_correct (t : VirtualFile) (p : List String)
    (hne : p ≠ []) (hval : (getNode t p).isSome = true)
    (hdirs : allDirsAlong t p.dropLast = true) :
    findParentFrom t [] p = some p.dropLast := by
  have h1 := findParent_reach p t [] hne hval hdirs
  rw [List.nil_append] at h1
  cases h : findParentFrom t [] p with
  | none => rw [h] at h1; simp at h1
  | some r =>
    obtain ⟨n, hn⟩ := findParentFrom_shape t [] p r h
    subst hn
    simp

/-! ### C7: `..` resolution and `cd ..` -/

/-- C7 (amended): resolving the single segment `..` with the cursor at the
root yields the root again (a no-op, not an error); and from any non-root
directory node reachable from the root through directories, `cd ..` moves
the cursor to exactly the node's parent *when that parent is a directory
carrying the execute bit* — when the parent lacks the execute bit, `cd ..`
reports permission denied and leaves the cursor unchanged (this gate is
what the original claim omits). -/
theorem dotdot_navigation :
    (∀ t : VirtualFile, navigatePath t [] ".." false = some [])
    ∧ ∀ (st : FSState) (v pv : VirtualFile),
        st.cwd ≠ [] →
        getNode st.root st.cwd = some v →
        allDirsAlong st.root st.cwd.dropLast = true →
        getNode st.root st.cwd.dropLast = some pv →
        pv.is_dir = true →
        (hasPermission pv 'x' = true →
          cd st [".."] = (FSState.mk st.root st.cwd.dropLast, []))
        ∧ (hasPermission pv 'x' = false →
          cd st [".."] = (st, [cdDeniedMsg ".."])) := by
  constructor
  · intro t
    show navParts t [] [".."] = some []
    rw [navParts]
    have h1 : ¬(".." = "" ∨ ".." = ".") := by decide
    rw [if_neg h1, if_pos rfl, findParentFrom_nil_target t []]
    rfl
  · intro st v pv hne hval hdirs hpv hpd
    have hnav : navigatePath st.root st.cwd ".." false = some st.cwd.dropLast := by
      show navParts st.root st.cwd [".."] = some st.cwd.dropLast
      rw [navParts]
      have h1 : ¬(".." = "" ∨ ".." = ".") := by decide
      rw [if_neg h1, if_pos rfl,
        findParent_correct st.root st.cwd hne (by rw [hval]; rfl) hdirs]
      rfl
    have hnn : navigateNode st.root st.cwd ".." false
        = some (st.cwd.dropLast, pv) := by
      simp [navigateNode, hnav, hpv]
    constructor <;> intro hx <;> simp [cd, hnn, hpd, hx]

/-- Witness for C7: `cd ..` from `/a` with an executable root parent. -/
theorem dotdot_navigation_witness :
    navigatePath c7Wit.root [] ".." false = some []
    ∧ cd c7Wit [".."] = (FSState.mk c7Wit.root [], []) := by
  refine ⟨dotdot_navigation.1 c7Wit.root, ?_⟩
  exact (dotdot_navigation.2 c7Wit (VirtualFile.mk "a" true 0o755 [])
    c7Wit.root (by decide) rfl (by decide) rfl (by decide)).1 (by decide)

/-- C7 counterexample: `a` is a non-root directory reachable from the
root, yet `cd ..` from it does not move the cursor to its parent — the
parent (the root) lacks the execute bit, so the command denies and the
cursor stays at `a`. -/
theorem dotdot_navigation_cex :
    (getNode c7Root ["a"]).map VirtualFile.is_dir = some true
    ∧ cd (FSState.mk c7Root ["a"]) [".."]
        = (FSState.mk c7Root ["a"], [cdDeniedMsg ".."]) := ⟨rfl, rfl⟩

/-! ### Characterisation of the tree build (`_add_file`) -/

theorem lookupChild_mapChildAt (cs : List (String × VirtualFile)) (k s : String)
    (f : VirtualFile → VirtualFile) :
    lookupChild (mapChildAt cs k f) s
      = if s = k then (lookupChild cs k).map f else lookupChild cs s := by
  induction cs with
  | nil => by_cases h : s = k <;> simp [mapChildAt, lookupChild, h]
  | cons hd tl ih =>
    obtain ⟨n, c⟩ := hd
    by_cases hnk : n = k
    · subst hnk
      by_cases hns : n = s
      · subst hns
        simp [mapChildAt, lookupChild]
      · have hsn : ¬(s = n) := fun h => hns h.symm
        simp [mapChildAt, lookupChild, hns, hsn, ih]
    · by_cases hns : n = s
      · subst hns
        have hnk2 : ¬(n = k) := hnk
        simp [mapChildAt, lookupChild, hnk2]
      · simp [mapChildAt, lookupChild, hnk, hns, ih]

theorem lookupChild_append_single (cs : List (String × VirtualFile))
    (nm s : String) (c : VirtualFile) :
    lookupChild (cs ++ [(nm, c)]) s
      = match lookupChild cs s with
        | some d => some d
        | none => if nm = s then some c else none := by
  induction cs with
  | nil => simp [lookupChild]
  | cons hd tl ih =>
    obtain ⟨n, d⟩ := hd
    by_cases hns : n = s <;> simp [lookupChild, hns, ih]

/-- `_add_file` never touches the fields of the node it is called on (it
only extends its children). -/
theorem addFile_meta (v : VirtualFile) (parts : List String) (info : ZipInfo) :
    (addFile v parts info).name = v.name
    ∧ (addFile v parts info).is_dir = v.is_dir
    ∧ (addFile v parts info).permissions = v.permissions := by
  cases parts with
  | nil => cases v; simp [addFile]
  | cons nm rest =>
    cases v with
    | mk n d pm cs =>
      cases h : lookupChild cs nm with
      | some c =>
        simp [addFile, h, VirtualFile.name, VirtualFile.is_dir,
          VirtualFile.permissions]
      | none =>
        simp [addFile, h, VirtualFile.name, VirtualFile.is_dir,
          VirtualFile.permissions]

/-- Preservation half of the build step: a node already present before an
`_add_file` call is still present at the same path afterwards, with its
`name`, `is_dir` and `permissions` untouched (only children mappings on
the walked path can grow). -/
theorem addFile_preserves (parts : List String) (info : ZipInfo) :
    ∀ (v : VirtualFile) (p : List String) (w : VirtualFile),
      getNode v p = some w →
      ∃ w', getNode (addFile v parts info) p = some w'
        ∧ w'.name = w.name ∧ w'.is_dir = w.is_dir
        ∧ w'.permissions = w.permissions := by
  induction parts with
  | nil =>
    intro v p w h
    refine ⟨w, ?_, rfl, rfl, rfl⟩
    rw [addFile]
    exact h
  | cons nm rest ih =>
    intro v p w h
    cases v with
    | mk n d pm cs =>
      cases p with
      | nil =>
        obtain rfl : VirtualFile.mk n d pm cs = w := by
          simpa [getNode] using h
        refine ⟨addFile (VirtualFile.mk n d pm cs) (nm :: rest) info, rfl, ?_⟩
        have hm := addFile_meta (VirtualFile.mk n d pm cs) (nm :: rest) info
        exact ⟨hm.1, hm.2.1, hm.2.2⟩
      | cons s pr =>
        have hstep : ∃ c, lookupChild cs s = some c ∧ getNode c pr = some w := by
          simp only [getNode, VirtualFile.children] at h
          cases hc : lookupChild cs s with
          | none => rw [hc] at h; simp at h
          | some c => rw [hc] at h; exact ⟨c, rfl, h⟩
        obtain ⟨c, hc, hcw⟩ := hstep
        cases hnm : lookupChild cs nm with
        | some c0 =>
          by_cases hsnm : s = nm
          · have hcc : c0 = c := by
              rw [hsnm] at hc
              rw [hnm] at hc
              injection hc
            subst hcc
            obtain ⟨w', hw', hmeta⟩ := ih c0 pr w hcw
            refine ⟨w', ?_, hmeta⟩
            simp only [addFile, hnm, getNode, VirtualFile.children]
            rw [lookupChild_mapChildAt, if_pos hsnm, hnm]
            simpa using hw'
          · refine ⟨w, ?_, rfl, rfl, rfl⟩
            simp only [addFile, hnm, getNode, VirtualFile.children]
            rw [lookupChild_mapChildAt, if_neg hsnm, hc]
            exact hcw
        | none =>
          have hsnm : ¬(s = nm) := by
            intro heq
            rw [heq, hnm] at hc
            exact Option.noConfusion hc
          refine ⟨w, ?_, rfl, rfl, rfl⟩
          simp only [addFile, hnm, getNode, VirtualFile.children]
          rw [lookupChild_mapChildAt, if_neg hsnm, lookupChild_append_single,
            hc]
          exact hcw

/-- Creation half of the build step: every nonempty prefix of the record's
path that was missing before the call exists afterwards, created with the
record's declared directory flag and effective permissions (the source
applies them to every missing segment, intermediate or final), and named
after its last segment. -/
theorem addFile_creates (parts : List String) (info : ZipInfo) :
    ∀ (v : VirtualFile) (prefx : List String),
      prefx ≠ [] → prefx <+: parts → getNode v prefx = none →
      ∃ w', getNode (addFile v parts info) prefx = some w'
        ∧ w'.is_dir = info.isDirFlag ∧ w'.permissions = effPerms info
        ∧ w'.name = prefx.getLastD "" := by
  induction parts with
  | nil =>
    intro v prefx hne hpre hmiss
    exact absurd (List.prefix_nil.mp hpre) hne
  | cons nm rest ih =>
    intro v prefx hne hpre hmiss
    cases v with
    | mk n d pm cs =>
      cases prefx with
      | nil => exact absurd rfl hne
      | cons s pre' =>
        obtain ⟨hs, hpre'⟩ : s = nm ∧ pre' <+: rest := by
          obtain ⟨t, ht⟩ := hpre
          rw [List.cons_append] at ht
          injection ht with h1 h2
          exact ⟨h1, ⟨t, h2⟩⟩
        subst hs
        cases hnm : lookupChild cs s with
        | some c =>
          have hpr : getNode c pre' = none := by
            simp only [getNode, VirtualFile.children, hnm] at hmiss
            exact hmiss
          have hpne : pre' ≠ [] := by
            intro hnil
            rw [hnil] at hpr
            simp [getNode] at hpr
          obtain ⟨w', hw', hmeta⟩ := ih c pre' hpne hpre' hpr
          refine ⟨w', ?_, hmeta.1, hmeta.2.1, ?_⟩
          · simp only [addFile, hnm, getNode, VirtualFile.children]
            rw [lookupChild_mapChildAt, if_pos rfl, hnm]
            simpa using hw'
          · rw [hmeta.2.2]
            cases pre' with
            | nil => exact absurd rfl hpne
            | cons a b => rfl
        | none =>
          cases hpe : pre' with
          | nil =>
            subst hpe
            refine ⟨addFile (VirtualFile.mk s info.isDirFlag (effPerms info) [])
              rest info, ?_, ?_⟩
            · simp only [addFile, hnm, getNode, VirtualFile.children]
              rw [lookupChild_mapChildAt, if_pos rfl, lookupChild_append_single,
                hnm]
              simp [getNode]
            · have hm := addFile_meta
                (VirtualFile.mk s info.isDirFlag (effPerms info) []) rest info
              exact ⟨hm.2.1, hm.2.2, hm.1⟩
          | cons a b =>
            rw [← hpe]
            have hpne : pre' ≠ [] := by rw [hpe]; simp
            have hmiss' : getNode (VirtualFile.mk s info.isDirFlag
                (effPerms info) []) pre' = none := by
              rw [hpe]
              simp [getNode, VirtualFile.children, lookupChild]
            obtain ⟨w', hw', hmeta⟩ := ih
              (VirtualFile.mk s info.isDirFlag (effPerms info) []) pre'
              hpne hpre' hmiss'
            refine ⟨w', ?_, hmeta.1, hmeta.2.1, ?_⟩
            · simp only [addFile, hnm, getNode, VirtualFile.children]
              rw [lookupChild_mapChildAt, if_pos rfl, lookupChild_append_single,
                hnm]
              simpa using hw'
            · rw [hmeta.2.2, hpe]
              rfl

/-! ### C3: how the build treats existing and missing segments -/

/-- C3 (amended): during the build, any segment that already exists is
reused without altering its name, directory flag or permissions; and every
*missing* segment of a record's path — intermediate and final alike — is
created with the record's declared `is_directory` flag and the record's
effective permissions (the fixed default replacing a zero extracted mode).
(The original claim — missing intermediate segments become directory
placeholders while only the final segment receives the record's flag —
fails on the source, which stamps the record's own flag and mode on every
segment it creates; see the counterexample.) -/
theorem build_segment_reuse_and_creation :
    (∀ (parts : List String) (info : ZipInfo) (v : VirtualFile)
       (p : List String) (w : VirtualFile),
       getNode v p = some w →
       ∃ w', getNode (addFile v parts info) p = some w'
         ∧ w'.name = w.name ∧ w'.is_dir = w.is_dir
         ∧ w'.permissions = w.permissions)
    ∧ (∀ (parts : List String) (info : ZipInfo) (v : VirtualFile)
       (prefx : List String),
       prefx ≠ [] → prefx <+: parts → getNode v prefx = none →
       ∃ w', getNode (addFile v parts info) prefx = some w'
         ∧ w'.is_dir = info.isDirFlag ∧ w'.permissions = effPerms info
         ∧ w'.name = prefx.getLastD "") :=
  ⟨fun parts info => addFile_preserves parts info,
   fun parts info => addFile_creates parts info⟩

/-- Witness for C3: reuse of an existing node and creation of a missing
final segment in a one-record tree. -/
theorem build_segment_reuse_and_creation_witness :
    (∃ w', getNode (addFile (VirtualFile.mk "/" true 0o755
        [("a", VirtualFile.mk "a" true 0o700 [])]) ["a", "b"]
        (ZipInfo.mk "a/b" true 0)) ["a"] = some w'
      ∧ w'.permissions = 0o700)
    ∧ (∃ w', getNode (addFile (VirtualFile.mk "/" true 0o755
        [("a", VirtualFile.mk "a" true 0o700 [])]) ["a", "b"]
        (ZipInfo.mk "a/b" true 0)) ["a", "b"] = some w'
      ∧ w'.is_dir = true ∧ w'.permissions = 0o755) := by
  constructor
  · obtain ⟨w', h1, _, _, h4⟩ := build_segment_reuse_and_creation.1
      ["a", "b"] (ZipInfo.mk "a/b" true 0)
      (VirtualFile.mk "/" true 0o755 [("a", VirtualFile.mk "a" true 0o700 [])])
      ["a"] (VirtualFile.mk "a" true 0o700 []) rfl
    exact ⟨w', h1, by rw [h4]; rfl⟩
  · obtain ⟨w', h1, h2, h3, _⟩ := build_segment_reuse_and_creation.2
      ["a", "b"] (ZipInfo.mk "a/b" true 0)
      (VirtualFile.mk "/" true 0o755 [("a", VirtualFile.mk "a" true 0o700 [])])
      ["a", "b"] (by decide) List.prefix_rfl rfl
    exact ⟨w', h1, h2, by rw [h3]; rfl⟩

/-- C3 counterexample: a single *file* record `a/b.txt` whose intermediate
segment `a` is missing.  The build creates `a` with the record's own
directory flag — `false` — not as a directory placeholder. -/
theorem build_segment_cex :
    (getNode (loadZip [ZipInfo.mk "a/b.txt" false 0]) ["a"]).map
        VirtualFile.is_dir = some false := rfl

/-! ### C8: mode extraction and the zero-mode default -/

/-- C8: a node created for a record carries the permissions
`(ext_attr >>> 16) &&& 0o777`, with a zero extraction replaced by the
fixed default `0o755`. -/
theorem mode_extraction_default :
    ∀ (v : VirtualFile) (nm : String) (rest : List String) (info : ZipInfo),
      getNode v [nm] = none →
      ∃ w', getNode (addFile v (nm :: rest) info) [nm] = some w'
        ∧ w'.permissions
            = (if (info.ext_attr >>> 16) &&& 0o777 = 0 then 0o755
               else (info.ext_attr >>> 16) &&& 0o777)
        ∧ w'.is_dir = info.isDirFlag := by
  intro v nm rest info hmiss
  obtain ⟨w', hw', hdir, hperm, _⟩ := addFile_creates (nm :: rest) info v [nm]
    (by simp) ⟨rest, rfl⟩ hmiss
  exact ⟨w', hw', by rw [hperm]; rfl, hdir⟩

/-- Witness for C8: one nonzero-mode record and one zero-mode record. -/
theorem mode_extraction_default_witness :
    (∃ w', getNode (addFile rootInit ["f"] (ZipInfo.mk "f" false 27525120))
        ["f"] = some w' ∧ w'.permissions = 0o644)
    ∧ (∃ w', getNode (addFile rootInit ["g"] (ZipInfo.mk "g" false 0))
        ["g"] = some w' ∧ w'.permissions = 0o755) := by
  constructor
  · obtain ⟨w', h1, h2, _⟩ := mode_extraction_default rootInit "f" []
      (ZipInfo.mk "f" false 27525120) rfl
    exact ⟨w', h1, by rw [h2]; rfl⟩
  · obtain ⟨w', h1, h2, _⟩ := mode_extraction_default rootInit "g" []
      (ZipInfo.mk "g" false 0) rfl
    exact ⟨w', h1, by rw [h2]; rfl⟩

/-! ### C10: rm with a trailing separator -/

theorem splitChars_trailing_sep (sep : Char) :
    ∀ (l : List Char), l.getLast? = some sep →
      ∃ pre, splitChars sep l = pre ++ [[]] ∧ pre ≠ [] := by
  intro l
  induction l with
  | nil => intro h; simp at h
  | cons c l' ih =>
    intro h
    cases l' with
    | nil =>
      obtain rfl : c = sep := by simpa using h
      exact ⟨[[]], by simp [splitChars], by simp⟩
    | cons d tl =>
      have h' : (d :: tl).getLast? = some sep := by
        rw [List.getLast?_cons_cons] at h
        exact h
      obtain ⟨pre, hsp, hne⟩ := ih h'
      cases pre with
      | nil => exact absurd rfl hne
      | cons p0 pre' =>
        refine ⟨if c = sep then [] :: p0 :: pre' else (c :: p0) :: pre', ?_, ?_⟩
        · rw [splitChars, hsp]
          by_cases hc : c = sep <;> simp [hc]
        · by_cases hc : c = sep <;> simp [hc]

/-- A path argument ending in the separator has an empty basename. -/
theorem basename_trailing_sep (p : String) (h : strEndsWith p '/' = true) :
    basename p = "" := by
  have hlast : p.data.getLast? = some '/' := by
    unfold strEndsWith at h
    cases hl : p.data.getLast? with
    | none => rw [hl] at h; simp at h
    | some c0 =>
      rw [hl] at h
      simp at h
      rw [h]
  obtain ⟨pre, hsp, _⟩ := splitChars_trailing_sep '/' p.data hlast
  unfold basename
  rw [hsp, List.getLastD_concat]
  rfl

/-- Removing a child somewhere in the tree never changes the fields of the
node the update starts at (in particular the root survives any `rm`). -/
theorem updateAt_removeChild_meta (v : VirtualFile) (p : List String)
    (k : String) :
    (updateAt v p (removeChildFile k)).name = v.name
    ∧ (updateAt v p (removeChildFile k)).is_dir = v.is_dir
    ∧ (updateAt v p (removeChildFile k)).permissions = v.permissions := by
  cases p with
  | nil =>
    cases v
    simp [updateAt, removeChildFile, VirtualFile.name, VirtualFile.is_dir,
      VirtualFile.permissions]
  | cons s pr =>
    cases v
    simp [updateAt, VirtualFile.name, VirtualFile.is_dir,
      VirtualFile.permissions]

/-- C10 (amended): an `rm` argument ending in the path separator reports
"No such file or directory" and leaves the tree unchanged — even when the
directory named by the last non-empty segment exists in the resolved
parent — because the target name is the basename of the raw argument,
which is empty for such paths; *provided* the resolved parent has no child
keyed by the empty string (a tree built from an archive entry containing a
double slash can have one, and `rm` then silently deletes it; see the
counterexample).  Moreover no `rm` invocation ever removes the root node:
the root always survives with name, flag and permissions intact. -/
theorem rm_trailing_slash_and_root :
    (∀ (st : FSState) (arg : String),
      strEndsWith arg '/' = true →
      (∀ pp pnode, navigateNode st.root st.cwd arg true = some (pp, pnode) →
        lookupChild pnode.children "" = none) →
      rm st [arg] = (st, [rmNoSuchMsg arg]))
    ∧ (∀ (st : FSState) (args : List String),
        (rm st args).1.root.name = st.root.name
        ∧ (rm st args).1.root.is_dir = st.root.is_dir
        ∧ (rm st args).1.root.permissions = st.root.permissions) := by
  constructor
  · intro st arg hslash hempty
    have hb : basename arg = "" := basename_trailing_sep arg hslash
    simp only [rm, hb]
    cases hnav : navigateNode st.root st.cwd arg true with
    | none => rfl
    | some pr =>
      obtain ⟨pp, pnode⟩ := pr
      have hmem := hempty pp pnode hnav
      simp [hmem]
  · intro st args
    cases args with
    | nil => exact ⟨rfl, rfl, rfl⟩
    | cons a rest =>
      simp only [rm]
      cases hnav : navigateNode st.root st.cwd a true with
      | none => exact ⟨rfl, rfl, rfl⟩
      | some pr =>
        obtain ⟨pp, pnode⟩ := pr
        cases hmem : (lookupChild pnode.children (basename a)).isSome with
        | false => simp [hmem]
        | true =>
          cases hw : hasPermission pnode 'w' with
          | false => simp [hmem, hw]
          | true =>
            simp only [hmem, hw, if_true]
            exact updateAt_removeChild_meta st.root pp (basename a)

/-- Witness for C10: `rm dir1/` against a clean tree reports not-found. -/
theorem rm_trailing_slash_and_root_witness :
    rm c10Wit ["dir1/"] = (c10Wit, [rmNoSuchMsg "dir1/"]) := by
  refine rm_trailing_slash_and_root.1 c10Wit "dir1/" (by decide) ?_
  intro pp pnode hnav
  have heq : (pp, pnode) = ([], c10Wit.root) := by
    have h0 : navigateNode c10Wit.root c10Wit.cwd "dir1/" true
        = some ([], c10Wit.root) := rfl
    rw [h0] at hnav
    exact (Option.some.inj hnav).symm
  rw [show pnode = c10Wit.root from congrArg Prod.snd heq]
  rfl

/-- C10 counterexample: the tree (buildable from an archive entry with a
doubled slash) has a child keyed by the empty string at the root.  `rm
dir1/` then reports nothing and silently removes that empty-keyed entry:
the command neither prints "No such file or directory" nor leaves the tree
unchanged, although `dir1` exists in the resolved parent. -/
theorem rm_trailing_slash_cex :
    strEndsWith "dir1/" '/' = true
    ∧ (getNode c10Root ["dir1"]).map VirtualFile.is_dir = some true
    ∧ (rm (FSState.mk c10Root []) ["dir1/"]).2 = []
    ∧ (rm (FSState.mk c10Root []) ["dir1/"]).1.root.children.map Prod.fst
        = ["dir1"] := ⟨rfl, rfl, rfl, rfl⟩

/-! ### C4: the session cursor state machine -/

theorem navigateNode_getNode (root : VirtualFile) (cwd : List String)
    (path : String) (par : Bool) (p : List String) (v : VirtualFile)
    (h : navigateNode root cwd path par = some (p, v)) :
    getNode root p = some v := by
  unfold navigateNode at h
  cases hnav : navigatePath root cwd path par with
  | none => rw [hnav] at h; simp at h
  | some q =>
    rw [hnav, Option.some_bind] at h
    cases hg : getNode root q with
    | none => rw [hg] at h; exact Option.noConfusion h
    | some w =>
      rw [hg] at h
      have h2 : (q, w) = (p, v) := Option.some.inj h
      rw [Prod.mk.injEq] at h2
      rw [← h2.1, hg, h2.2]

theorem ls_fst (st : FSState) (args : List String) : (ls st args).1 = st := by
  unfold ls
  cases h : getTargetDir st args with
  | mk o out =>
    cases o with
    | none => rfl
    | some pv => obtain ⟨p, v⟩ := pv; rfl

theorem find_fst (st : FSState) (args : List String) : (find st args).1 = st := by
  unfold find
  cases h : getNode st.root st.cwd with
  | none => rfl
  | some v => rfl

/-- `chmod` either leaves the state alone or rewrites the permissions of
one resolved node, keeping the cursor. -/
theorem chmod_state (st : FSState) (args : List String) :
    (chmod st args).1 = st
    ∨ ∃ p mode, (chmod st args).1
        = FSState.mk (updateAt st.root p (setPerms mode)) st.cwd := by
  match args with
  | [] => exact Or.inl rfl
  | [m] => exact Or.inl rfl
  | m :: a :: b :: rest3 => exact Or.inl rfl
  | [m, a] =>
    simp only [chmod]
    cases hp : parseOctal m with
    | none => exact Or.inl rfl
    | some mode =>
      simp only [chmodWith]
      cases hnav : navigateNode st.root st.cwd a false with
      | none => exact Or.inl rfl
      | some pv =>
        obtain ⟨p, v⟩ := pv
        cases hw : hasPermission v 'w' with
        | false => exact Or.inl (by simp [hw])
        | true => exact Or.inr ⟨p, mode, by simp [hw]⟩

theorem rm_fst_cwd (st : FSState) (args : List String) :
    (rm st args).1.cwd = st.cwd := by
  cases args with
  | nil => rfl
  | cons a rest =>
    simp only [rm]
    cases hnav : navigateNode st.root st.cwd a true with
    | none => rfl
    | some pr =>
      obtain ⟨pp, pnode⟩ := pr
      cases hmem : (lookupChild pnode.children (basename a)).isSome with
      | false => simp [hnav, hmem]
      | true =>
        cases hw : hasPermission pnode 'w' with
        | false => simp [hnav, hmem, hw]
        | true => simp [hnav, hmem, hw]

/-- Rewriting permissions somewhere in the tree changes no node's
existence or directory flag: `getNode` results agree up to `is_dir`. -/
theorem getNode_updateAt_setPerms (q : List String) (mode : Nat) :
    ∀ (t : VirtualFile) (p : List String),
      (getNode (updateAt t q (setPerms mode)) p).map VirtualFile.is_dir
        = (getNode t p).map VirtualFile.is_dir := by
  induction q with
  | nil =>
    intro t p
    cases t with
    | mk n d pm cs =>
      cases p with
      | nil => rfl
      | cons s pr => rfl
  | cons s qr ih =>
    intro t p
    cases t with
    | mk n d pm cs =>
      cases p with
      | nil => rfl
      | cons s' pr =>
        simp only [updateAt, getNode, VirtualFile.children]
        rw [lookupChild_mapChildAt]
        by_cases hss : s' = s
        · rw [if_pos hss]
          cases hc : lookupChild cs s with
          | none => rw [hss, hc]; rfl
          | some c =>
            rw [hss, hc]
            simp only [Option.map_some]
            exact ih c pr
        · rw [if_neg hss]

theorem loadZip_isDir (infos : List ZipInfo) :
    (loadZip infos).is_dir = true := by
  unfold loadZip
  suffices h : ∀ (l : List ZipInfo) (t : VirtualFile), t.is_dir = true →
      (l.foldl (fun root info => addFile root (splitParts info.filename) info)
        t).is_dir = true by
    exact h infos rootInit rfl
  intro l
  induction l with
  | nil => intro t ht; exact ht
  | cons i rest ih =>
    intro t ht
    refine ih _ ?_
    rw [(addFile_meta t (splitParts i.filename) i).2.1]
    exact ht

theorem cd_cursorOk (st : FSState) (args : List String) (h : CursorOk st) :
    CursorOk (cd st args).1 := by
  match args with
  | [] => exact ⟨⟨st.root, rfl, h.2⟩, h.2⟩
  | a :: rest =>
    simp only [cd]
    cases hnav : navigateNode st.root st.cwd a false with
    | none => exact h
    | some pv =>
      obtain ⟨p, v⟩ := pv
      cases hd : v.is_dir with
      | false => simpa [hd] using h
      | true =>
        cases hx : hasPermission v 'x' with
        | false => simpa [hd, hx] using h
        | true =>
          simp only [hd, hx, if_true]
          exact ⟨⟨v, navigateNode_getNode _ _ _ _ _ _ hnav, hd⟩, h.2⟩

theorem chmod_cursorOk (st : FSState) (args : List String) (h : CursorOk st) :
    CursorOk (chmod st args).1 := by
  rcases chmod_state st args with heq | ⟨p, mode, heq⟩
  · rw [heq]; exact h
  · rw [heq]
    obtain ⟨⟨v, hv, hd⟩, hroot⟩ := h
    constructor
    · have hm := getNode_updateAt_setPerms p mode st.root st.cwd
      rw [hv] at hm
      cases hg : getNode (updateAt st.root p (setPerms mode)) st.cwd with
      | none => rw [hg] at hm; simp at hm
      | some w =>
        rw [hg] at hm
        refine ⟨w, rfl, ?_⟩
        rw [Option.some.inj hm, hd]
    · have hm := getNode_updateAt_setPerms p mode st.root []
      simp only [getNode] at hm
      have := Option.some.inj hm
      rw [this, hroot]

theorem runCmds_cursorOk : ∀ (cmds : List Cmd) (st : FSState), CursorOk st →
    Cmd.noRm cmds = true → CursorOk (runCmds st cmds) := by
  intro cmds
  induction cmds with
  | nil => intro st h _; exact h
  | cons c rest ih =>
    intro st h hnr
    cases c with
    | ls args =>
      refine ih _ ?_ hnr
      rw [show (step st (Cmd.ls args)).1 = st from ls_fst st args]
      exact h
    | cd args => exact ih _ (cd_cursorOk st args h) hnr
    | chmod args => exact ih _ (chmod_cursorOk st args h) hnr
    | rm args => exact absurd hnr (by simp [Cmd.noRm])
    | find args =>
      refine ih _ ?_ hnr
      rw [show (step st (Cmd.find args)).1 = st from find_fst st args]
      exact h

/-- C4 (amended): the session cursor is changed only by `cd`; and in every
state reachable from startup by a sequence of `ls`, `cd`, `chmod` and
`find` commands the cursor refers to a directory node reachable from the
root.  (The original claim also admits `rm`, but `rm` can detach the very
subtree the cursor sits in — while leaving the cursor untouched — after
which the cursor is no longer reachable from the root; see the
counterexample.) -/
theorem cursor_reachability :
    (∀ (infos : List ZipInfo) (cmds : List Cmd), Cmd.noRm cmds = true →
       ∃ v, getNode (runCmds (initState infos) cmds).root
              (runCmds (initState infos) cmds).cwd = some v
         ∧ v.is_dir = true)
    ∧ (∀ (st : FSState) (c : Cmd), Cmd.notCd c = true →
        (step st c).1.cwd = st.cwd) := by
  constructor
  · intro infos cmds hnr
    have h0 : CursorOk (initState infos) :=
      ⟨⟨loadZip infos, rfl, loadZip_isDir infos⟩, loadZip_isDir infos⟩
    exact (runCmds_cursorOk cmds (initState infos) h0 hnr).1
  · intro st c hc
    cases c with
    | ls args => exact congrArg FSState.cwd (ls_fst st args)
    | cd args => simp [Cmd.notCd] at hc
    | chmod args =>
      rcases chmod_state st args with heq | ⟨p, mode, heq⟩
      · exact congrArg FSState.cwd heq
      · rw [show (step st (Cmd.chmod args)).1
            = FSState.mk (updateAt st.root p (setPerms mode)) st.cwd from heq]
    | rm args => exact rm_fst_cwd st args
    | find args => exact congrArg FSState.cwd (find_fst st args)

/-- Witness for C4: a `cd` into `dir1` (no `rm` in the sequence) keeps the
cursor at a reachable directory, and the `chmod` step does not move it. -/
theorem cursor_reachability_witness :
    (∃ v, getNode (runCmds (initState c4Infos) [Cmd.cd ["dir1"]]).root
        (runCmds (initState c4Infos) [Cmd.cd ["dir1"]]).cwd = some v
      ∧ v.is_dir = true)
    ∧ (step (initState c4Infos) (Cmd.chmod ["700", "dir1"])).1.cwd
        = (initState c4Infos).cwd := by
  constructor
  · exact cursor_reachability.1 c4Infos [Cmd.cd ["dir1"]] (by decide)
  · exact cursor_reachability.2 (initState c4Infos)
      (Cmd.chmod ["700", "dir1"]) (by decide)

/-- C4 counterexample: after `cd dir1; rm /dir1` the cursor still sits at
the detached `dir1` path, which no longer resolves from the root — a
reachable state whose cursor is *not* a node reachable from the root. -/
theorem cursor_reachability_cex :
    (runCmds (initState c4Infos) [Cmd.cd ["dir1"], Cmd.rm ["/dir1"]]).cwd
        = ["dir1"]
    ∧ getNode
        (runCmds (initState c4Infos) [Cmd.cd ["dir1"], Cmd.rm ["/dir1"]]).root
        ["dir1"] = none := ⟨rfl, rfl⟩

/-! ### C9: path reconstruction and its round trip -/

theorem getNode_append (p : List String) :
    ∀ (v : VirtualFile) (q : List String),
      getNode v (p ++ q) = (getNode v p).bind fun w => getNode w q := by
  induction p with
  | nil => intro v q; rfl
  | cons s pr ih =>
    intro v q
    cases v with
    | mk n d pm cs =>
      simp only [List.cons_append, getNode, VirtualFile.children]
      cases hc : lookupChild cs s with
      | none => rfl
      | some c => exact ih c q

theorem allDirsAlong_prefix (a : List String) :
    ∀ (b : List String) (t : VirtualFile),
      allDirsAlong t (a ++ b) = true → allDirsAlong t a = true := by
  induction a with
  | nil => intro b t _; rfl
  | cons s a' ih =>
    intro b t h
    simp only [List.cons_append, allDirsAlong] at h ⊢
    cases hc : lookupChild t.children s with
    | none => rw [hc] at h; simp at h
    | some c =>
      rw [hc] at h
      have h' : c.is_dir = true ∧ allDirsAlong c (a' ++ b) = true := by
        simpa using h
      simp [h'.1, ih b c h'.2]

theorem string_append_assoc (a b c : String) : a ++ b ++ c = a ++ (b ++ c) := by
  cases a with
  | mk la =>
    cases b with
    | mk lb =>
      cases c with
      | mk lc => exact congrArg String.mk (List.append_assoc la lb lc)

theorem pathString_foldr (q : List String) :
    ∀ acc : String, q.foldr (fun s acc => "/" ++ s ++ acc) acc
      = pathString q ++ acc := by
  induction q with
  | nil => intro acc; rfl
  | cons s q' ih =>
    intro acc
    simp only [List.foldr_cons]
    rw [ih acc]
    show ("/" ++ s) ++ (pathString q' ++ acc) = pathString (s :: q') ++ acc
    rw [← string_append_assoc]
    rfl

theorem getNode_isSome_prefix (root : VirtualFile) (a b : List String)
    (h : (getNode root (a ++ b)).isSome = true) :
    (getNode root a).isSome = true := by
  rw [getNode_append] at h
  cases ha : getNode root a with
  | none => rw [ha] at h; simp at h
  | some w => rfl

/-- Walking an ordinary segment list (no empty, `.` or `..` segments) that
is present in the tree resolves to exactly that path. -/
theorem navParts_along (suffix : List String) :
    ∀ (root : VirtualFile) (cur : List String),
      (getNode root (cur ++ suffix)).isSome = true →
      (∀ s ∈ suffix, s ≠ "" ∧ s ≠ "." ∧ s ≠ "..") →
      navParts root cur suffix = some (cur ++ suffix) := by
  induction suffix with
  | nil => intro root cur _ _; simp [navParts]
  | cons s rest ih =>
    intro root cur hval hseg
    obtain ⟨h1, h2, h3⟩ := hseg s (by simp)
    have hval' : (getNode root ((cur ++ [s]) ++ rest)).isSome = true := by
      rw [List.append_assoc]
      simpa using hval
    have hvs : (getNode root (cur ++ [s])).isSome = true :=
      getNode_isSome_prefix root (cur ++ [s]) rest hval'
    have hnode : ∃ node, getNode root cur = some node
        ∧ (lookupChild node.children s).isSome = true := by
      rw [getNode_append] at hvs
      cases hn : getNode root cur with
      | none => rw [hn] at hvs; simp at hvs
      | some node =>
        rw [hn] at hvs
        refine ⟨node, rfl, ?_⟩
        simp only [Option.some_bind] at hvs
        cases node with
        | mk n d pm cs =>
          simp only [getNode, VirtualFile.children] at hvs
          cases hl : lookupChild cs s with
          | none => rw [hl] at hvs; simp at hvs
          | some c => simp [VirtualFile.children, hl]
    obtain ⟨node, hn, hl⟩ := hnode
    obtain ⟨c, hc⟩ := Option.isSome_iff_exists.mp hl
    simp only [navParts]
    rw [if_neg (by simp [h1, h2]), if_neg h3, hn]
    simp only [hc]
    have := ih root (cur ++ [s]) hval' (fun t ht => hseg t (by simp [ht]))
    rw [this, List.append_assoc]
    rfl

theorem string_data_append (a b : String) : (a ++ b).data = a.data ++ b.data := by
  cases a
  cases b
  rfl

theorem string_append_empty (a : String) : a ++ "" = a := by
  cases a with
  | mk l => exact congrArg String.mk (List.append_nil l)

theorem pathString_concat (q : List String) (s : String) :
    pathString (q ++ [s]) = pathString q ++ ("/" ++ s) := by
  unfold pathString
  rw [List.foldr_append]
  simp only [List.foldr_cons, List.foldr_nil]
  rw [pathString_foldr]
  rw [string_append_empty]
  rfl

/-- Correctness of the `_get_path` climb: on a nonempty attached path with
directory ancestors and key-consistent names, it produces the slash-joined
segments in front of the accumulator. -/
theorem getPathLoop_correct :
    ∀ (k : Nat) (p : List String) (root : VirtualFile) (acc : String),
      p.length ≤ k →
      (getNode root p).isSome = true →
      allDirsAlong root p.dropLast = true →
      (∀ q s, q ++ [s] <+: p →
        (getNode root (q ++ [s])).map VirtualFile.name = some s) →
      getPathLoop root k p acc = some (pathString p ++ acc) := by
  intro k
  induction k with
  | zero =>
    intro p root acc hlen _ _ _
    obtain rfl : p = [] := List.eq_nil_of_length_eq_zero (Nat.le_zero.mp hlen)
    rfl
  | succ k ih =>
    intro p root acc hlen hval hdirs hnames
    cases hp : p with
    | nil => rfl
    | cons p0 pr =>
      subst hp
      have hne : (p0 :: pr) ≠ [] := by simp
      obtain ⟨v, hv⟩ := Option.isSome_iff_exists.mp hval
      have hfp : findParentFrom root [] (p0 :: pr)
          = some ((p0 :: pr).dropLast) :=
        findParent_correct root (p0 :: pr) hne hval hdirs
      have hsplit : (p0 :: pr).dropLast ++ [(p0 :: pr).getLast hne]
          = p0 :: pr := List.dropLast_append_getLast hne
      have hvname : v.name = (p0 :: pr).getLast hne := by
        have := hnames ((p0 :: pr).dropLast) ((p0 :: pr).getLast hne)
          (by rw [hsplit])
        rw [hsplit, hv] at this
        exact Option.some.inj this
      have hvald : (getNode root ((p0 :: pr).dropLast)).isSome = true := by
        refine getNode_isSome_prefix root _ [(p0 :: pr).getLast hne] ?_
        rw [hsplit]
        exact hval
      have hdirsd : allDirsAlong root ((p0 :: pr).dropLast).dropLast = true := by
        obtain ⟨b, hb⟩ := List.dropLast_prefix ((p0 :: pr).dropLast)
        exact allDirsAlong_prefix _ b root (by rw [hb]; exact hdirs)
      have hnamesd : ∀ q s, q ++ [s] <+: (p0 :: pr).dropLast →
          (getNode root (q ++ [s])).map VirtualFile.name = some s := by
        intro q s hqs
        exact hnames q s (hqs.trans (List.dropLast_prefix _))
      have hlend : ((p0 :: pr).dropLast).length ≤ k := by
        have := List.length_dropLast (p0 :: pr)
        simp only [List.length_cons] at this hlen
        omega
      simp only [getPathLoop, hv, hfp]
      rw [ih ((p0 :: pr).dropLast) root ("/" ++ v.name ++ acc) hlend hvald
        hdirsd hnamesd]
      rw [hvname]
      have : pathString (p0 :: pr)
          = pathString ((p0 :: pr).dropLast) ++ ("/" ++ (p0 :: pr).getLast hne) := by
        conv_lhs => rw [← hsplit]
        rw [pathString_concat]
      rw [this]
      rw [← string_append_assoc]

theorem splitChars_ne_nil (sep : Char) (l : List Char) :
    splitChars sep l ≠ [] := by
  cases l with
  | nil => simp [splitChars]
  | cons c rest =>
    simp only [splitChars]
    cases splitChars sep rest with
    | nil => simp
    | cons seg segs =>
      by_cases h : c = sep <;> simp [h]

theorem splitChars_no_sep (sep : Char) :
    ∀ l : List Char, ¬(sep ∈ l) → splitChars sep l = [l] := by
  intro l
  induction l with
  | nil => intro _; rfl
  | cons c rest ih =>
    intro h
    have hc : ¬(c = sep) := fun hh => h (by simp [hh])
    have hrest : ¬(sep ∈ rest) := fun hh => h (by simp [hh])
    simp only [splitChars, ih hrest]
    simp [hc]

theorem splitChars_append_sep (sep : Char) :
    ∀ (a r : List Char), ¬(sep ∈ a) →
      splitChars sep (a ++ sep :: r) = a :: splitChars sep r := by
  intro a
  induction a with
  | nil =>
    intro r _
    simp only [List.nil_append, splitChars]
    cases h : splitChars sep r with
    | nil => exact absurd h (splitChars_ne_nil sep r)
    | cons seg segs => simp
  | cons c a' ih =>
    intro r h
    have hc : ¬(c = sep) := fun hh => h (by simp [hh])
    have ha : ¬(sep ∈ a') := fun hh => h (by simp [hh])
    simp only [List.cons_append, splitChars, List.append_eq]
    rw [ih r ha]
    simp [hc]

theorem string_mk_data (s : String) : String.mk s.data = s := by
  cases s
  rfl

theorem pathString_cons (s : String) (q : List String) :
    pathString (s :: q) = "/" ++ s ++ pathString q := rfl

theorem pathString_data (p : List String) :
    (pathString p).data = p.foldr (fun s acc => '/' :: (s.data ++ acc)) [] := by
  induction p with
  | nil => rfl
  | cons s q ih =>
    rw [pathString_cons]
    rw [string_data_append, string_data_append]
    rw [ih]
    rfl

theorem pathData_getLast (rest : List String) :
    ∀ s : String, s.data ≠ [] → ¬('/' ∈ s.data) →
      (∀ t ∈ rest, t.data ≠ [] ∧ ¬('/' ∈ t.data)) →
      ∃ c, (s.data ++ (pathString rest).data).getLast? = some c ∧ ¬(c = '/') := by
  induction rest with
  | nil =>
    intro s hne hns _
    have : (pathString []).data = [] := rfl
    rw [this, List.append_nil]
    cases h : s.data.getLast? with
    | none => exact absurd (List.getLast?_eq_none_iff.mp h) hne
    | some c =>
      refine ⟨c, rfl, fun hc => hns ?_⟩
      obtain ⟨hnil, hcl⟩ := List.mem_getLast?_eq_getLast
        (show c ∈ s.data.getLast? by rw [h]; rfl)
      rw [← hc, hcl]
      exact List.getLast_mem hnil
  | cons t rr ih =>
    intro s hne hns hrest
    have hD : (pathString (t :: rr)).data
        = '/' :: (t.data ++ (pathString rr).data) := by
      rw [pathString_data]
      simp only [List.foldr_cons]
      rw [← pathString_data]
    rw [hD]
    obtain ⟨c, hc, hcs⟩ := ih t (hrest t (by simp)).1 (hrest t (by simp)).2
      (fun u hu => hrest u (by simp [hu]))
    refine ⟨c, ?_, hcs⟩
    have h1 : t.data ++ (pathString rr).data ≠ [] := by
      intro hh
      exact (hrest t (by simp)).1 (List.append_eq_nil.mp hh).1
    rw [show s.data ++ '/' :: (t.data ++ (pathString rr).data)
        = s.data ++ ['/'] ++ (t.data ++ (pathString rr).data) by simp]
    rw [List.getLast?_append, hc]
    rfl

theorem splitChars_pathData (rest : List String) :
    ∀ s : String, ¬('/' ∈ s.data) →
      (∀ t ∈ rest, ¬('/' ∈ t.data)) →
      splitChars '/' (s.data ++ (pathString rest).data)
        = s.data :: rest.map String.data := by
  induction rest with
  | nil =>
    intro s h _
    have : (pathString []).data = [] := rfl
    rw [this, List.append_nil]
    simp [splitChars_no_sep '/' s.data h]
  | cons t rr ih =>
    intro s h hrest
    have hD : (pathString (t :: rr)).data
        = '/' :: (t.data ++ (pathString rr).data) := by
      rw [pathString_data]
      simp only [List.foldr_cons]
      rw [← pathString_data]
    rw [hD]
    rw [splitChars_append_sep '/' s.data _ h]
    rw [ih t (hrest t (by simp)) (fun u hu => hrest u (by simp [hu]))]
    rfl

theorem map_mk_data (l : List String) :
    l.map (fun t => String.mk t.data) = l := by
  induction l with
  | nil => rfl
  | cons t tl ih => simp [string_mk_data, ih]

theorem string_ne_empty_of_data (s : String) (h : s.data ≠ []) : s ≠ "" := by
  intro hh
  rw [hh] at h
  exact h rfl

theorem string_data_ne_nil (s : String) (h : s ≠ "") : s.data ≠ [] := by
  intro hh
  apply h
  have h2 := congrArg String.mk hh
  rwa [string_mk_data] at h2

/-- The data of the reconstructed path of a nonempty segment list: a slash
followed by the first segment and the reconstruction of the rest. -/
theorem pathString_cons_data (p0 : String) (pr : List String) :
    (pathString (p0 :: pr)).data = '/' :: (p0.data ++ (pathString pr).data) := by
  rw [pathString_data]
  simp only [List.foldr_cons]
  rw [← pathString_data]

theorem stripChar_pathString (p0 : String) (pr : List String)
    (hseg : ∀ t ∈ p0 :: pr, t.data ≠ [] ∧ ¬('/' ∈ t.data)) :
    (stripChar '/' (pathString (p0 :: pr))).data
      = p0.data ++ (pathString pr).data := by
  have hD := pathString_cons_data p0 pr
  show (((pathString (p0 :: pr)).data.dropWhile (· = '/')).reverse.dropWhile
      (· = '/')).reverse = p0.data ++ (pathString pr).data
  rw [hD]
  have hdrop : (('/' :: (p0.data ++ (pathString pr).data)).dropWhile (· = '/'))
      = p0.data ++ (pathString pr).data := by
    rw [List.dropWhile_cons_of_pos (by simp)]
    cases hp0 : p0.data with
    | nil => exact absurd hp0 (hseg p0 (by simp)).1
    | cons c cd =>
      have hcns : ¬(c = '/') := by
        intro hh
        exact (hseg p0 (by simp)).2 (by rw [hp0, hh]; simp)
      simp only [List.cons_append]
      rw [List.dropWhile_cons_of_neg (by simpa using hcns)]
  rw [hdrop]
  obtain ⟨c, hlast, hcs⟩ := pathData_getLast pr p0 (hseg p0 (by simp)).1
    (hseg p0 (by simp)).2 (fun u hu => hseg u (by simp [hu]))
  have hrev : (p0.data ++ (pathString pr).data).reverse.head? = some c := by
    rw [List.head?_reverse]
    exact hlast
  cases hrl : (p0.data ++ (pathString pr).data).reverse with
  | nil => rw [hrl] at hrev; simp at hrev
  | cons c0 rtl =>
    rw [hrl] at hrev
    have hc0 : c0 = c := by simpa using hrev
    rw [List.dropWhile_cons_of_neg (by simpa [hc0] using hcs)]
    rw [← hrl, List.reverse_reverse]

theorem splitParts_pathString (p : List String) (hne : p ≠ [])
    (hseg : ∀ t ∈ p, t.data ≠ [] ∧ ¬('/' ∈ t.data)) :
    splitParts (pathString p) = p := by
  cases p with
  | nil => exact absurd rfl hne
  | cons p0 pr =>
    unfold splitParts
    rw [stripChar_pathString p0 pr hseg]
    rw [splitChars_pathData pr p0 (hseg p0 (by simp)).2
      (fun u hu => (hseg u (by simp [hu])).2)]
    simp only [List.map_cons, List.map_map]
    rw [string_mk_data]
    have : pr.map (String.mk ∘ String.data) = pr.map (fun t => String.mk t.data) := rfl
    rw [this, map_mk_data]

/-- C9 (amended): the root's reconstructed path is the separator string
`/` alone; and for every node at a nonempty path reachable from the root
such that (a) every strict ancestor is a directory — without this the
parent search fails and the source's `_get_path` loop crashes, see the
counterexample — (b) every segment is nonempty, contains no separator and
differs from `.` and `..`, and (c) every node on the path carries a `name`
equal to the key under which its parent stores it (the data-model
invariant), `_get_path` produces the slash-joined absolute path and
resolving that string (from any cwd, since it is absolute) yields back
exactly the node's path. -/
theorem getPath_navigate_roundtrip :
    (∀ root : VirtualFile, getPath root [] = some "/")
    ∧ ∀ (root : VirtualFile) (p cwd : List String),
        p ≠ [] →
        (getNode root p).isSome = true →
        allDirsAlong root p.dropLast = true →
        (∀ s ∈ p, s ≠ "" ∧ s ≠ "." ∧ s ≠ ".." ∧ ¬('/' ∈ s.data)) →
        (∀ q ∈ p.inits, q ≠ [] →
          (getNode root q).map VirtualFile.name = some (q.getLastD "")) →
        getPath root p = some (pathString p)
        ∧ navigatePath root cwd (pathString p) false = some p := by
  constructor
  · intro root; rfl
  · intro root p cwd hne hval hdirs hseg hnames
    have hnames2 : ∀ q s, q ++ [s] <+: p →
        (getNode root (q ++ [s])).map VirtualFile.name = some s := by
      intro q s hqs
      have hmem : q ++ [s] ∈ p.inits := (List.mem_inits (q ++ [s]) p).mpr hqs
      have h2 := hnames (q ++ [s]) hmem (by simp)
      rwa [List.getLastD_concat] at h2
    have hsegd : ∀ t ∈ p, t.data ≠ [] ∧ ¬('/' ∈ t.data) := by
      intro t ht
      exact ⟨string_data_ne_nil t (hseg t ht).1, (hseg t ht).2.2.2⟩
    have hgp : getPath root p = some (pathString p) := by
      unfold getPath
      rw [getPathLoop_correct p.length p root "" (le_refl _) hval hdirs
        hnames2]
      rw [string_append_empty]
      have hnz : ¬(pathString p = "") := by
        cases p with
        | nil => exact absurd rfl hne
        | cons p0 pr =>
          intro hh
          have hd2 := congrArg String.data hh
          rw [pathString_cons_data] at hd2
          simp at hd2
      simp [hnz]
    refine ⟨hgp, ?_⟩
    cases hp : p with
    | nil => exact absurd hp hne
    | cons p0 pr =>
      subst hp
      have hstart : strStartsWith (pathString (p0 :: pr)) '/' = true := by
        unfold strStartsWith
        rw [pathString_cons_data]
        simp
      have hsplitp : splitParts (pathString (p0 :: pr)) = p0 :: pr :=
        splitParts_pathString _ hne hsegd
      simp only [navigatePath, hsplitp, hstart]
      simp only [if_true, Bool.false_eq_true, if_false]
      have hnp := navParts_along (p0 :: pr) root []
        (by simpa using hval)
        (fun s hs => ⟨(hseg s hs).1, (hseg s hs).2.1, (hseg s hs).2.2.1⟩)
      simpa using hnp

/-- Witness for C9 on a two-level tree with key-consistent names. -/
theorem getPath_navigate_roundtrip_witness :
    getPath c9Wit [] = some "/"
    ∧ getPath c9Wit ["a", "b"] = some (pathString ["a", "b"])
    ∧ navigatePath c9Wit [] (pathString ["a", "b"]) false = some ["a", "b"] := by
  refine ⟨getPath_navigate_roundtrip.1 c9Wit, ?_⟩
  have h := getPath_navigate_roundtrip.2 c9Wit ["a", "b"] [] (by decide)
    (by decide) (by decide) (by decide) (by decide)
  exact ⟨h.1, h.2⟩

/-- C9 counterexample: in the tree built from the lone file record `f/g`,
the node at `f/g` is reachable, every node's name equals its key and is an
ordinary segment — yet its ancestor `f` is not a directory, so the
depth-first parent search never descends to find `g`'s parent and the
`_get_path` climb fails (in the source, `None` has no `name`: a crash)
instead of producing a resolvable absolute path. -/
theorem getPath_navigate_roundtrip_cex :
    (getNode c9Root ["f", "g"]).isSome = true
    ∧ (getNode c9Root ["f"]).map VirtualFile.name = some "f"
    ∧ (getNode c9Root ["f", "g"]).map VirtualFile.name = some "g"
    ∧ (getNode c9Root ["f"]).map VirtualFile.is_dir = some false
    ∧ getPath c9Root ["f", "g"] = none := ⟨rfl, rfl, rfl, rfl, rfl⟩

/-! ### C2: the build / enumeration round trip -/

theorem splitParts_ne_nil (s : String) : splitParts s ≠ [] := by
  unfold splitParts
  intro h
  exact splitChars_ne_nil '/' (stripChar '/' s).data (List.map_eq_nil_iff.mp h)

theorem partsOf_ne_nil (r : ZipInfo) : partsOf r ≠ [] :=
  splitParts_ne_nil r.filename

theorem mapChildAt_keys (cs : List (String × VirtualFile)) (k : String)
    (f : VirtualFile → VirtualFile) :
    (mapChildAt cs k f).map Prod.fst = cs.map Prod.fst := by
  induction cs with
  | nil => rfl
  | cons hd tl ih =>
    obtain ⟨n, c⟩ := hd
    by_cases h : n = k <;> simp [mapChildAt, h, ih]

theorem mem_mapChildAt (cs : List (String × VirtualFile)) (k : String)
    (f : VirtualFile → VirtualFile) (s : String) (c' : VirtualFile)
    (h : (s, c') ∈ mapChildAt cs k f) :
    (s, c') ∈ cs ∨ ∃ c, (s, c) ∈ cs ∧ c' = f c := by
  induction cs with
  | nil => simp [mapChildAt] at h
  | cons hd tl ih =>
    obtain ⟨n, c0⟩ := hd
    by_cases hn : n = k
    · rw [mapChildAt, if_pos hn] at h
      rcases List.mem_cons.mp h with heq | htl
      · obtain ⟨h1, h2⟩ := Prod.mk.injEq .. ▸ heq
        exact Or.inr ⟨c0, by rw [h1]; simp, by rw [h2]⟩
      · exact Or.inl (List.mem_cons_of_mem _ htl)
    · rw [mapChildAt, if_neg hn] at h
      rcases List.mem_cons.mp h with heq | htl
      · exact Or.inl (by rw [heq]; simp)
      · rcases ih htl with h1 | ⟨c, hc1, hc2⟩
        · exact Or.inl (List.mem_cons_of_mem _ h1)
        · exact Or.inr ⟨c, List.mem_cons_of_mem _ hc1, hc2⟩

theorem lookupChild_none_not_mem (cs : List (String × VirtualFile))
    (k : String) (h : lookupChild cs k = none) : ¬(k ∈ cs.map Prod.fst) := by
  induction cs with
  | nil => simp
  | cons hd tl ih =>
    obtain ⟨n, c⟩ := hd
    by_cases hn : n = k
    · rw [lookupChild, if_pos hn] at h
      exact Option.noConfusion h
    · rw [lookupChild, if_neg hn] at h
      simp only [List.map_cons, List.mem_cons]
      rintro (h1 | h2)
      · exact hn h1.symm
      · exact ih h h2

theorem lookupChild_mem (cs : List (String × VirtualFile)) (s : String)
    (c : VirtualFile) (h : lookupChild cs s = some c) : (s, c) ∈ cs := by
  induction cs with
  | nil => simp [lookupChild] at h
  | cons hd tl ih =>
    obtain ⟨n, c0⟩ := hd
    by_cases hn : n = s
    · rw [lookupChild, if_pos hn] at h
      obtain rfl : c0 = c := Option.some.inj h
      rw [hn]
      simp
    · rw [lookupChild, if_neg hn] at h
      exact List.mem_cons_of_mem _ (ih h)

theorem lookupChild_of_mem_nodup (cs : List (String × VirtualFile))
    (s : String) (c : VirtualFile) (hmem : (s, c) ∈ cs)
    (hnd : (cs.map Prod.fst).Nodup) : lookupChild cs s = some c := by
  induction cs with
  | nil => simp at hmem
  | cons hd tl ih =>
    obtain ⟨n, c0⟩ := hd
    simp only [List.map_cons, List.nodup_cons] at hnd
    rcases List.mem_cons.mp hmem with heq | htl
    · obtain ⟨h1, h2⟩ := Prod.mk.injEq .. ▸ heq.symm
      rw [lookupChild, if_pos h1, h2]
    · have hns : ¬(n = s) := by
        intro hh
        exact hnd.1 (hh ▸ (List.mem_map.mpr ⟨(s, c), htl, rfl⟩))
      rw [lookupChild, if_neg hns]
      exact ih htl hnd.2

theorem WFKeys_inv (n : String) (d : Bool) (pm : Nat)
    (cs : List (String × VirtualFile)) (h : WFKeys (VirtualFile.mk n d pm cs)) :
    (cs.map Prod.fst).Nodup ∧ ∀ s c, (s, c) ∈ cs → WFKeys c := by
  cases h with
  | mk _ _ _ _ hnd hm => exact ⟨hnd, hm⟩

theorem childrenDirs_child (v : VirtualFile) (hcd : ChildrenDirs v)
    (s : String) (c : VirtualFile) (hl : lookupChild v.children s = some c) :
    ChildrenDirs c := by
  intro p s' hps
  have hconv : ∀ q, getNode v (s :: q) = getNode c q := by
    intro q
    cases v with
    | mk n d pm cs =>
      simp only [getNode, VirtualFile.children] at hl ⊢
      rw [hl]
  have h2 : (getNode v ((s :: p) ++ [s'])).isSome = true := by
    rw [List.cons_append, hconv]
    exact hps
  obtain ⟨w, hw, hwd⟩ := hcd (s :: p) s' h2
  rw [hconv] at hw
  exact ⟨w, hw, hwd⟩

theorem childrenDirs_self (c : VirtualFile) (hcd : ChildrenDirs c)
    (hne : c.children ≠ []) : c.is_dir = true := by
  obtain ⟨⟨s0, c0⟩, cs', hcs⟩ : ∃ hd tl, c.children = hd :: tl := by
    cases h : c.children with
    | nil => exact absurd h hne
    | cons hd tl => exact ⟨hd, tl, rfl⟩
  have hl : (lookupChild c.children s0).isSome = true := by
    rw [hcs, lookupChild, if_pos rfl]
    rfl
  have h2 : (getNode c ([] ++ [s0])).isSome = true := by
    cases c with
    | mk n d pm cs =>
      simp only [List.nil_append, getNode, VirtualFile.children] at hl ⊢
      cases hx : lookupChild cs s0 with
      | none => rw [hx] at hl; simp at hl
      | some w => rfl
  obtain ⟨w, hw, hwd⟩ := hcd [] s0 h2
  obtain rfl : c = w := Option.some.inj hw
  exact hwd

/-- `_add_file` creates nodes only along (nonempty prefixes of) the
record's path: anything present afterwards either was present before or
is such a prefix. -/
theorem addFile_new_only_prefixes (parts : List String) (info : ZipInfo) :
    ∀ (v : VirtualFile) (p : List String),
      (getNode (addFile v parts info) p).isSome = true →
      (getNode v p).isSome = true ∨ (p ≠ [] ∧ p <+: parts) := by
  induction parts with
  | nil =>
    intro v p h
    rw [addFile] at h
    exact Or.inl h
  | cons nm rest ih =>
    intro v p h
    cases v with
    | mk n d pm cs =>
      cases p with
      | nil => exact Or.inl rfl
      | cons s pr =>
        cases hnm : lookupChild cs nm with
        | some c =>
          rw [show addFile (VirtualFile.mk n d pm cs) (nm :: rest) info
              = VirtualFile.mk n d pm
                (mapChildAt cs nm (fun c => addFile c rest info)) by
            simp [addFile, hnm]] at h
          simp only [getNode, VirtualFile.children] at h ⊢
          rw [lookupChild_mapChildAt] at h
          by_cases hsnm : s = nm
          · rw [if_pos hsnm, hnm] at h
            simp only [Option.map_some'] at h
            rcases ih c pr h with h1 | ⟨h2, h3⟩
            · rw [hsnm, hnm]
              exact Or.inl h1
            · exact Or.inr ⟨by simp, by rw [hsnm]; exact List.cons_prefix_cons.mpr ⟨rfl, h3⟩⟩
          · rw [if_neg hsnm] at h
            exact Or.inl h
        | none =>
          rw [show addFile (VirtualFile.mk n d pm cs) (nm :: rest) info
              = VirtualFile.mk n d pm
                (mapChildAt
                  (cs ++ [(nm, VirtualFile.mk nm info.isDirFlag
                    (effPerms info) [])]) nm
                  (fun c => addFile c rest info)) by
            simp [addFile, hnm]] at h
          simp only [getNode, VirtualFile.children] at h ⊢
          rw [lookupChild_mapChildAt] at h
          by_cases hsnm : s = nm
          · rw [if_pos hsnm, lookupChild_append_single, hnm] at h
            simp at h
            rcases ih _ pr h with h1 | ⟨h2, h3⟩
            · cases pr with
              | nil =>
                refine Or.inr ⟨by simp, ?_⟩
                rw [hsnm]
                exact List.cons_prefix_cons.mpr ⟨rfl, List.nil_prefix⟩
              | cons a b =>
                simp [getNode, VirtualFile.children, lookupChild] at h1
            · exact Or.inr ⟨by simp,
                by rw [hsnm]; exact List.cons_prefix_cons.mpr ⟨rfl, h3⟩⟩
          · rw [if_neg hsnm, lookupChild_append_single] at h
            rw [if_neg (fun hh => hsnm hh.symm)] at h
            cases hls : lookupChild cs s with
            | none => rw [hls] at h; simp at h
            | some c2 =>
              rw [hls] at h
              exact Or.inl h

/-- `_add_file` keeps children keys distinct at every node. -/
theorem addFile_wfKeys (parts : List String) (info : ZipInfo) :
    ∀ (v : VirtualFile), WFKeys v → WFKeys (addFile v parts info) := by
  induction parts with
  | nil =>
    intro v h
    rw [addFile]
    exact h
  | cons nm rest ih =>
    intro v h
    cases v with
    | mk n d pm cs =>
      obtain ⟨hnd, hm⟩ := WFKeys_inv n d pm cs h
      cases hnm : lookupChild cs nm with
      | some c =>
        rw [show addFile (VirtualFile.mk n d pm cs) (nm :: rest) info
            = VirtualFile.mk n d pm
              (mapChildAt cs nm (fun c => addFile c rest info)) by
          simp [addFile, hnm]]
        refine WFKeys.mk _ _ _ _ (by rw [mapChildAt_keys]; exact hnd) ?_
        intro s c' hc'
        rcases mem_mapChildAt cs nm _ s c' hc' with h1 | ⟨c0, hc0, rfl⟩
        · exact hm s c' h1
        · exact ih c0 (hm s c0 hc0)
      | none =>
        rw [show addFile (VirtualFile.mk n d pm cs) (nm :: rest) info
            = VirtualFile.mk n d pm
              (mapChildAt
                (cs ++ [(nm, VirtualFile.mk nm info.isDirFlag
                  (effPerms info) [])]) nm
                (fun c => addFile c rest info)) by
          simp [addFile, hnm]]
        have hnew : WFKeys (VirtualFile.mk nm info.isDirFlag (effPerms info) []) :=
          WFKeys.mk _ _ _ _ (by simp) (by simp)
        refine WFKeys.mk _ _ _ _ ?_ ?_
        · rw [mapChildAt_keys]
          simp only [List.map_append, List.map_cons, List.map_nil]
          rw [List.nodup_append]
          refine ⟨hnd, by simp, ?_⟩
          intro x hx
          simp only [List.mem_singleton]
          intro hh
          exact lookupChild_none_not_mem cs nm hnm (hh ▸ hx)
        · intro s c' hc'
          rcases mem_mapChildAt _ nm _ s c' hc' with h1 | ⟨c0, hc0, rfl⟩
          · rcases List.mem_append.mp h1 with h2 | h2
            · exact hm s c' h2
            · obtain ⟨hs, hc⟩ := Prod.mk.injEq .. ▸ (List.mem_singleton.mp h2)
              rw [hc]
              exact hnew
          · rcases List.mem_append.mp hc0 with h2 | h2
            · exact ih c0 (hm s c0 h2)
            · obtain ⟨hs, hc⟩ := Prod.mk.injEq .. ▸ (List.mem_singleton.mp h2)
              rw [hc]
              exact ih _ hnew

theorem enumChildren_mem_aux :
    ∀ (k : Nat) (cs : List (String × VirtualFile)), sizeOf cs ≤ k →
      ((cs.map Prod.fst).Nodup) →
      (∀ s c, (s, c) ∈ cs → WFKeys c) →
      (∀ s c, (s, c) ∈ cs → ChildrenDirs c) →
      ∀ (cur q : List String) (flag : Bool),
        ((q, flag) ∈ enumChildren cs cur ↔
          ∃ s rest c, lookupChild cs s = some c ∧ q = cur ++ s :: rest
            ∧ ∃ v', getNode c rest = some v' ∧ v'.is_dir = flag) := by
  intro k
  induction k using Nat.strong_induction_on with
  | _ k ih =>
    intro cs hsz hnd hwf hcd cur q flag
    cases cs with
    | nil => simp [enumChildren, lookupChild]
    | cons hd tl =>
      obtain ⟨s0, c0⟩ := hd
      cases c0 with
      | mk n0 d0 pm0 cc0 =>
        simp only [List.map_cons, List.nodup_cons] at hnd
        obtain ⟨hs0, hndtl⟩ := hnd
        have hszc0 : sizeOf cc0 < k := by
          have h1 : sizeOf ((s0, VirtualFile.mk n0 d0 pm0 cc0) :: tl)
              = 1 + sizeOf (s0, VirtualFile.mk n0 d0 pm0 cc0) + sizeOf tl := by
            simp
          have h2 : sizeOf (s0, VirtualFile.mk n0 d0 pm0 cc0)
              = 1 + sizeOf s0 + (1 + sizeOf n0 + 1 + pm0 + sizeOf cc0) := by
            simp
          omega
        have hsztl : sizeOf tl < k := by
          have h1 : sizeOf ((s0, VirtualFile.mk n0 d0 pm0 cc0) :: tl)
              = 1 + sizeOf (s0, VirtualFile.mk n0 d0 pm0 cc0) + sizeOf tl := by
            simp
          have h2 : 0 < sizeOf (s0, VirtualFile.mk n0 d0 pm0 cc0) := by simp
          omega
        have hwfc0 : WFKeys (VirtualFile.mk n0 d0 pm0 cc0) :=
          hwf s0 _ (by simp)
        have hcdc0 : ChildrenDirs (VirtualFile.mk n0 d0 pm0 cc0) :=
          hcd s0 _ (by simp)
        obtain ⟨hndc0, hmc0⟩ := WFKeys_inv n0 d0 pm0 cc0 hwfc0
        have hcdmc0 : ∀ s c, (s, c) ∈ cc0 → ChildrenDirs c := by
          intro s c hmem
          exact childrenDirs_child _ hcdc0 s c
            (lookupChild_of_mem_nodup cc0 s c hmem hndc0)
        have hIHc0 := ih (sizeOf cc0) hszc0 cc0 (le_refl _) hndc0 hmc0 hcdmc0
        have hIHtl := ih (sizeOf tl) hsztl tl (le_refl _) hndtl
          (fun s c hm => hwf s c (by simp [hm]))
          (fun s c hm => hcd s c (by simp [hm]))
        have hunf : enumChildren ((s0, VirtualFile.mk n0 d0 pm0 cc0) :: tl) cur
            = (cur ++ [s0], d0)
              :: ((if d0 = true then enumChildren cc0 (cur ++ [s0]) else [])
                  ++ enumChildren tl cur) := by
          simp [enumChildren, enumNodes, VirtualFile.is_dir]
        rw [hunf]
        constructor
        · intro hmem
          rcases List.mem_cons.mp hmem with heq | hmem2
          · obtain ⟨hq, hfl⟩ := Prod.mk.injEq .. ▸ heq
            refine ⟨s0, [], VirtualFile.mk n0 d0 pm0 cc0,
              by rw [lookupChild, if_pos rfl], by rw [hq], ?_⟩
            exact ⟨VirtualFile.mk n0 d0 pm0 cc0, rfl, by rw [hfl]; rfl⟩
          · rcases List.mem_append.mp hmem2 with hmem3 | hmem4
            · by_cases hd0 : d0 = true
              case neg => rw [if_neg hd0] at hmem3; simp at hmem3
              case pos =>
                rw [if_pos hd0] at hmem3
                obtain ⟨s', rest', c', hlk', hq', v', hv', hfl'⟩ :=
                  (hIHc0 (cur ++ [s0]) q flag).mp hmem3
                refine ⟨s0, s' :: rest', VirtualFile.mk n0 d0 pm0 cc0,
                  by rw [lookupChild, if_pos rfl],
                  by rw [hq', List.append_assoc]; rfl, v', ?_, hfl'⟩
                simp only [getNode, VirtualFile.children]
                rw [hlk']
                exact hv'
            · obtain ⟨s', rest', c', hlk', hq', hv'⟩ := (hIHtl cur q flag).mp hmem4
              have hs' : ¬(s0 = s') := by
                intro hh
                exact hs0 (hh ▸ List.mem_map.mpr
                  ⟨(s', c'), lookupChild_mem tl s' c' hlk', rfl⟩)
              exact ⟨s', rest', c', by rw [lookupChild, if_neg hs']; exact hlk',
                hq', hv'⟩
        · rintro ⟨s, rest, c, hlk, hq, v', hv', hfl⟩
          by_cases hss : s0 = s
          · rw [lookupChild, if_pos hss] at hlk
            obtain rfl : VirtualFile.mk n0 d0 pm0 cc0 = c := Option.some.inj hlk
            cases rest with
            | nil =>
              obtain rfl : VirtualFile.mk n0 d0 pm0 cc0 = v' := by
                simpa [getNode] using hv'
              apply List.mem_cons.mpr
              left
              rw [hq, ← hss]
              rw [← hfl]
              rfl
            | cons r0 rr =>
              simp only [getNode, VirtualFile.children] at hv'
              have hcc0ne : cc0 ≠ [] := by
                intro hh
                rw [hh] at hv'
                simp [lookupChild] at hv'
              have hd0 : d0 = true := by
                have := childrenDirs_self (VirtualFile.mk n0 d0 pm0 cc0)
                  hcdc0 (by rw [show (VirtualFile.mk n0 d0 pm0 cc0).children
                    = cc0 from rfl]; exact hcc0ne)
                simpa [VirtualFile.is_dir] using this
              cases hlkc : lookupChild cc0 r0 with
              | none => rw [hlkc] at hv'; simp at hv'
              | some c' =>
                rw [hlkc] at hv'
                apply List.mem_cons.mpr
                right
                apply List.mem_append.mpr
                left
                rw [hd0, if_pos rfl]
                apply (hIHc0 (cur ++ [s0]) q flag).mpr
                exact ⟨r0, rr, c', hlkc,
                  by rw [hq, ← hss, List.append_assoc]; rfl, v', hv', hfl⟩
          · rw [lookupChild, if_neg hss] at hlk
            apply List.mem_cons.mpr
            right
            apply List.mem_append.mpr
            right
            exact (hIHtl cur q flag).mpr ⟨s, rest, c, hlk, hq, v', hv', hfl⟩

theorem enum_mem_iff (t : VirtualFile) (hwf : WFKeys t) (hcd : ChildrenDirs t)
    (q : List String) (flag : Bool) :
    ((q, flag) ∈ enumNodes t []) ↔
      (q ≠ [] ∧ ∃ v', getNode t q = some v' ∧ v'.is_dir = flag) := by
  cases t with
  | mk n d pm cs =>
    obtain ⟨hnd, hm⟩ := WFKeys_inv n d pm cs hwf
    have hcdm : ∀ s c, (s, c) ∈ cs → ChildrenDirs c := by
      intro s c hmem
      exact childrenDirs_child _ hcd s c
        (lookupChild_of_mem_nodup cs s c hmem hnd)
    rw [show enumNodes (VirtualFile.mk n d pm cs) [] = enumChildren cs []
      from rfl]
    rw [enumChildren_mem_aux (sizeOf cs) cs (le_refl _) hnd hm hcdm [] q flag]
    constructor
    · rintro ⟨s, rest, c, hlk, hq, v', hv', hfl⟩
      refine ⟨by rw [hq]; simp, v', ?_, hfl⟩
      rw [hq]
      simp only [List.nil_append, getNode, VirtualFile.children]
      rw [hlk]
      exact hv'
    · rintro ⟨hne, v', hv', hfl⟩
      cases hq : q with
      | nil => exact absurd hq hne
      | cons s rest =>
        rw [hq] at hv'
        simp only [getNode, VirtualFile.children] at hv'
        cases hlk : lookupChild cs s with
        | none => rw [hlk] at hv'; simp at hv'
        | some c =>
          rw [hlk] at hv'
          exact ⟨s, rest, c, hlk, rfl, v', hv', hfl⟩

theorem buildInv_nil : BuildInv [] rootInit := by
  refine ⟨?_, ?_, ?_, ?_, rfl⟩
  · intro p hp
    constructor
    · intro h
      cases p with
      | nil => exact absurd rfl hp
      | cons s pr =>
        simp [getNode, rootInit, VirtualFile.children, lookupChild] at h
    · rintro ⟨r, hr, _⟩
      simp at hr
  · intro p v hp hv
    cases p with
    | nil => exact absurd rfl hp
    | cons s pr =>
      simp [getNode, rootInit, VirtualFile.children, lookupChild] at hv
  · exact WFKeys.mk _ _ _ _ (by simp) (by simp)
  · intro p s hps
    cases p with
    | nil =>
      simp [getNode, rootInit, VirtualFile.children, lookupChild] at hps
    | cons a b =>
      simp [getNode, rootInit, VirtualFile.children, lookupChild] at hps

theorem prefixClosed_split (records : List ZipInfo) (h : PrefixClosed records)
    (l₁ : List ZipInfo) (r : ZipInfo) (l₂ : List ZipInfo)
    (hsplit : records = l₁ ++ r :: l₂) :
    ∀ q ∈ (partsOf r).inits, q ≠ [] → q ≠ partsOf r → q ∈ l₁.map partsOf := by
  subst hsplit
  intro q hq hne hnefull
  have hi : l₁.length < (l₁ ++ r :: l₂).length := by simp
  have hget : (l₁ ++ r :: l₂).get ⟨l₁.length, hi⟩ = r := by
    simp only [List.get_eq_getElem]
    rw [List.getElem_append_right (le_refl _)]
    simp
  have h2 := h l₁.length hi q (by rw [hget]; exact hq)
    hne (by rw [hget]; exact hnefull)
  rwa [List.take_left] at h2

theorem prefixRecordsDirs_mem (records : List ZipInfo)
    (h : PrefixRecordsDirs records) (r r' : ZipInfo)
    (hr : r ∈ records) (hr' : r' ∈ records)
    (hne : partsOf r ≠ partsOf r') (hpre : partsOf r <+: partsOf r') :
    r.isDirFlag = true := by
  obtain ⟨⟨i, hi⟩, hgi⟩ := List.mem_iff_get.mp hr
  obtain ⟨⟨j, hj⟩, hgj⟩ := List.mem_iff_get.mp hr'
  have h2 := h i hi j hj (by rw [hgi, hgj]; exact hne)
    (by rw [hgi, hgj]; exact hpre)
  rw [hgi] at h2
  exact h2

/-- One build step preserves the Tree-Store invariant, given that the new
record's path is fresh, its proper prefixes already exist, and its parent
node (when not the root) is a directory. -/
theorem buildInv_step (rs : List ZipInfo) (t : VirtualFile) (r : ZipInfo)
    (hinv : BuildInv rs t)
    (hmissing : ¬(partsOf r ∈ rs.map partsOf))
    (hpre : ∀ q ∈ (partsOf r).inits, q ≠ [] → q ≠ partsOf r →
      q ∈ rs.map partsOf)
    (hpdir : (partsOf r).dropLast ≠ [] →
      ∃ w, getNode t ((partsOf r).dropLast) = some w ∧ w.is_dir = true) :
    BuildInv (rs ++ [r]) (addFile t (partsOf r) r) := by
  obtain ⟨hI1, hI2, hwf, hcd, hroot⟩ := hinv
  have hpne : partsOf r ≠ [] := partsOf_ne_nil r
  have hmiss : getNode t (partsOf r) = none := by
    cases hg : getNode t (partsOf r) with
    | none => rfl
    | some w =>
      obtain ⟨r', hr', hp'⟩ := (hI1 _ hpne).mp (by rw [hg]; rfl)
      exact absurd (List.mem_map.mpr ⟨r', hr', hp'⟩) hmissing
  have hprex : ∀ q, q ≠ [] → q ≠ partsOf r → q <+: partsOf r →
      (getNode t q).isSome = true := by
    intro q h1 h2 h3
    obtain ⟨r', hr', hp'⟩ := List.mem_map.mp
      (hpre q ((List.mem_inits q _).mpr h3) h1 h2)
    exact (hI1 q h1).mpr ⟨r', hr', hp'⟩
  obtain ⟨wnew, hwnew, hwdir, hwperm, hwname⟩ :=
    addFile_creates (partsOf r) r t (partsOf r) hpne List.prefix_rfl hmiss
  refine ⟨?_, ?_, addFile_wfKeys (partsOf r) r t hwf, ?_, ?_⟩
  · intro p hp
    constructor
    · intro h
      rcases addFile_new_only_prefixes (partsOf r) r t p h with h1 | ⟨h2, h3⟩
      · obtain ⟨r', hr', hp'⟩ := (hI1 p hp).mp h1
        exact ⟨r', List.mem_append_left _ hr', hp'⟩
      · by_cases hfull : p = partsOf r
        · exact ⟨r, List.mem_append_right _ (by simp), hfull.symm⟩
        · obtain ⟨r', hr', hp'⟩ := (hI1 p hp).mp (hprex p hp hfull h3)
          exact ⟨r', List.mem_append_left _ hr', hp'⟩
    · rintro ⟨r', hr', hp'⟩
      rcases List.mem_append.mp hr' with h1 | h2
      · obtain ⟨w, hw⟩ := Option.isSome_iff_exists.mp ((hI1 p hp).mpr ⟨r', h1, hp'⟩)
        obtain ⟨w2, hw2, _⟩ := addFile_preserves (partsOf r) r t p w hw
        rw [hw2]
        rfl
      · obtain rfl : r' = r := by simpa using h2
        rw [← hp', hwnew]
        rfl
  · intro p v hp hv
    by_cases hfull : p = partsOf r
    · subst hfull
      rw [hwnew] at hv
      obtain rfl : wnew = v := Option.some.inj hv
      exact ⟨r, List.mem_append_right _ (by simp), rfl, hwdir⟩
    · have hsome : (getNode t p).isSome = true := by
        rcases addFile_new_only_prefixes (partsOf r) r t p (by rw [hv]; rfl)
          with h1 | ⟨h2, h3⟩
        · exact h1
        · exact hprex p hp hfull h3
      obtain ⟨w, hw⟩ := Option.isSome_iff_exists.mp hsome
      obtain ⟨w2, hw2, _, hwdir2, _⟩ := addFile_preserves (partsOf r) r t p w hw
      rw [hw2] at hv
      obtain rfl : w2 = v := Option.some.inj hv
      obtain ⟨r', hr', hp', hfl'⟩ := hI2 p w hp hw
      exact ⟨r', List.mem_append_left _ hr', hp', by rw [hwdir2, hfl']⟩
  · intro p s hps
    have hexisted : (getNode t (p ++ [s])).isSome = true →
        ∃ w, getNode (addFile t (partsOf r) r) p = some w ∧ w.is_dir = true := by
      intro h1
      obtain ⟨w, hw, hwd⟩ := hcd p s h1
      obtain ⟨w2, hw2, _, hwd2, _⟩ := addFile_preserves (partsOf r) r t p w hw
      exact ⟨w2, hw2, by rw [hwd2, hwd]⟩
    rcases addFile_new_only_prefixes (partsOf r) r t (p ++ [s]) hps
      with h1 | ⟨h2, h3⟩
    · exact hexisted h1
    · by_cases hfull : p ++ [s] = partsOf r
      · cases hpc : p with
        | nil =>
          refine ⟨addFile t (partsOf r) r, rfl, ?_⟩
          rw [(addFile_meta t (partsOf r) r).2.1]
          exact hroot
        | cons a b =>
          rw [← hpc]
          have hpne2 : p ≠ [] := by rw [hpc]; simp
          have hpd : p = (partsOf r).dropLast := by
            rw [← hfull]
            simp
          obtain ⟨w, hw, hwd⟩ := hpdir (by rw [← hpd]; exact hpne2)
          rw [← hpd] at hw
          obtain ⟨w2, hw2, _, hwd2, _⟩ :=
            addFile_preserves (partsOf r) r t p w hw
          exact ⟨w2, hw2, by rw [hwd2, hwd]⟩
      · exact hexisted (hprex (p ++ [s]) h2 hfull h3)
  · rw [(addFile_meta t (partsOf r) r).2.1]
    exact hroot

theorem buildInv_fold (records : List ZipInfo)
    (h1 : (records.map partsOf).Nodup)
    (h2 : PrefixClosed records)
    (h3 : PrefixRecordsDirs records) :
    ∀ (l₂ l₁ : List ZipInfo) (t : VirtualFile), records = l₁ ++ l₂ →
      BuildInv l₁ t →
      BuildInv (l₁ ++ l₂)
        (l₂.foldl (fun tt info => addFile tt (splitParts info.filename) info)
          t) := by
  intro l₂
  induction l₂ with
  | nil =>
    intro l₁ t hsplit hinv
    simpa using hinv
  | cons r l₂' ih =>
    intro l₁ t hsplit hinv
    have hmissing : ¬(partsOf r ∈ l₁.map partsOf) := by
      intro hmem
      have hnd : ((l₁ ++ r :: l₂').map partsOf).Nodup := by
        rw [← hsplit]
        exact h1
      rw [List.map_append] at hnd
      exact (List.nodup_append.mp hnd).2.2 hmem (by simp)
    have hpre := prefixClosed_split records h2 l₁ r l₂' hsplit
    have hpdir : (partsOf r).dropLast ≠ [] →
        ∃ w, getNode t ((partsOf r).dropLast) = some w ∧ w.is_dir = true := by
      intro hdne
      have hinits : (partsOf r).dropLast ∈ (partsOf r).inits :=
        (List.mem_inits _ _).mpr (List.dropLast_prefix _)
      have hnefull : (partsOf r).dropLast ≠ partsOf r := by
        intro hh
        have hlen := congrArg List.length hh
        rw [List.length_dropLast] at hlen
        have hpos : 0 < (partsOf r).length :=
          List.length_pos.mpr (partsOf_ne_nil r)
        omega
      obtain ⟨r', hr', hp'⟩ := List.mem_map.mp (hpre _ hinits hdne hnefull)
      have hrmem : r' ∈ records := by
        rw [hsplit]
        exact List.mem_append_left _ hr'
      have hrm : r ∈ records := by rw [hsplit]; simp
      have hflag : r'.isDirFlag = true := prefixRecordsDirs_mem records h3 r' r
        hrmem hrm (by rw [hp']; exact hnefull)
        (by rw [hp']; exact List.dropLast_prefix _)
      obtain ⟨w, hw⟩ := Option.isSome_iff_exists.mp
        ((hinv.1 _ hdne).mpr ⟨r', hr', hp'⟩)
      obtain ⟨r'', hr'', hp'', hfl''⟩ := hinv.2.1 _ w hdne hw
      have hr2 : r'' = r' := by
        apply List.inj_on_of_nodup_map h1
          (by rw [hsplit]; exact List.mem_append_left _ hr'')
          (by rw [hsplit]; exact List.mem_append_left _ hr')
        rw [hp'', hp']
      exact ⟨w, hw, by rw [hfl'', hr2, hflag]⟩
    have hstep := buildInv_step l₁ t r hinv hmissing hpre hpdir
    have hres := ih (l₁ ++ [r]) (addFile t (partsOf r) r)
      (by rw [hsplit]; simp) hstep
    rw [show (l₁ ++ [r]) ++ l₂' = l₁ ++ r :: l₂' by simp] at hres
    exact hres

/-- C2 (amended): building the tree from an ordered record sequence whose
paths are pairwise distinct, whose every nonempty proper path prefix
occurs as an *earlier* record's path, and whose prefix records are flagged
as directories, and then recursively enumerating every directory,
reproduces exactly the set of non-root paths supplied by the records, each
node carrying its record's declared directory flag.  (Without these
conditions the round trip fails: the build invents intermediate nodes no
record supplied — see the counterexample.) -/
theorem build_enum_roundtrip (records : List ZipInfo)
    (h1 : (records.map partsOf).Nodup)
    (h2 : PrefixClosed records)
    (h3 : PrefixRecordsDirs records) :
    ∀ (q : List String) (flag : Bool),
      ((q, flag) ∈ enumNodes (loadZip records) []) ↔
        ∃ r ∈ records, partsOf r = q ∧ r.isDirFlag = flag := by
  have hinv0 := buildInv_fold records h1 h2 h3 records [] rootInit rfl
    buildInv_nil
  rw [List.nil_append] at hinv0
  have hinv2 : BuildInv records (loadZip records) := hinv0
  obtain ⟨hI1, hI2, hwf, hcd, _⟩ := hinv2
  intro q flag
  rw [enum_mem_iff (loadZip records) hwf hcd q flag]
  constructor
  · rintro ⟨hne, v', hv, hflag⟩
    obtain ⟨r, hr, hparts, hfl⟩ := hI2 q v' hne hv
    exact ⟨r, hr, hparts, by rw [← hfl, hflag]⟩
  · rintro ⟨r, hr, hparts, hflag⟩
    have hne : q ≠ [] := by
      rw [← hparts]
      exact partsOf_ne_nil r
    obtain ⟨v', hv⟩ := Option.isSome_iff_exists.mp
      ((hI1 q hne).mpr ⟨r, hr, hparts⟩)
    refine ⟨hne, v', hv, ?_⟩
    obtain ⟨r', hr', hparts', hfl'⟩ := hI2 q v' hne hv
    have heq : r' = r := List.inj_on_of_nodup_map h1 hr' hr
      (by rw [hparts', hparts])
    rw [hfl', heq, hflag]

/-- Witness for C2: a directory record followed by a file record under it. -/
theorem build_enum_roundtrip_witness :
    ((["docs"], true) ∈ enumNodes (loadZip c2WitRecords) [])
    ∧ ((["docs", "readme.txt"], false) ∈ enumNodes (loadZip c2WitRecords) []) := by
  have h := build_enum_roundtrip c2WitRecords (by decide)
    (by unfold PrefixClosed; decide) (by unfold PrefixRecordsDirs; decide)
  constructor
  · exact (h ["docs"] true).mpr
      ⟨ZipInfo.mk "docs/" true 0, by decide, by decide, rfl⟩
  · exact (h ["docs", "readme.txt"] false).mpr
      ⟨ZipInfo.mk "docs/readme.txt" false 0, by decide, by decide, rfl⟩

/-- C2 counterexample: a lone record `a/b` (nothing supplies `a`) builds a
tree whose directory enumeration contains the path `a` with no record
behind it: the round trip as universally stated over all record sequences
is false. -/
theorem build_enum_roundtrip_cex :
    ((["a"], true) ∈ enumNodes (loadZip c2CexRecords) [])
    ∧ ∀ r ∈ c2CexRecords, partsOf r ≠ ["a"] := by
  constructor
  · decide
  · decide
